import Mathlib

/-!
Verification of the pear graph engine: a shallow embedding of the
`Graph`/`Vertex`/`Edge`/`Path` data model (src/tools/graph-solver.ts, i.e.
`graph.ts`) and of the `GraphSolver` algorithms (BFS, DFS, Kruskal from
src/unnamed/part_003), together with proofs about the spec's claims.

Modelling conventions:
* JavaScript object identity is modelled by an allocation counter `ref : Nat`
  carried by every `Vertex` and `Edge`; each `Graph` also carries a `ref`
  identifying the graph object itself.
* A JS `Map` is modelled as an association list in insertion order:
  `set` overwrites in place when the key is present and appends otherwise;
  `delete` filters the key out; `get` finds the first (unique) entry.
* A JS `Set` of edges is modelled as a list without duplicate refs, in
  insertion order: `add` appends when absent, `delete` filters by ref.
* `WeakSet`s of vertices used by the traversals are modelled as lists of refs.
* JS numbers used as edge weights are modelled as `Int`.
* Mutation is modelled by explicit state passing: operations return the
  updated `Graph`.
-/

namespace Pear

/-- Allocation identity of a JS object. -/
abbrev Ref := Nat

/-- JS `Map.prototype.get`: first (unique) entry with the key. -/
def mapGet {κ γ : Type} [DecidableEq κ] (m : List (κ × γ)) (k : κ) : Option γ :=
  (m.find? (fun p => p.1 = k)).map (·.2)

/-- JS `Map.prototype.set`: overwrite in place when present, append otherwise. -/
def mapSet {κ γ : Type} [DecidableEq κ] (m : List (κ × γ)) (k : κ) (x : γ) :
    List (κ × γ) :=
  if m.any (fun p => p.1 = k) then
    m.map (fun p => if p.1 = k then (k, x) else p)
  else
    m ++ [(k, x)]

/-- JS `Map.prototype.delete`. -/
def mapDelete {κ γ : Type} [DecidableEq κ] (m : List (κ × γ)) (k : κ) :
    List (κ × γ) :=
  m.filter (fun p => ¬ p.1 = k)

/-- A JavaScript value, as far as `Graph.fromJSON` can observe one.
`jsUndefined` is the `undefined` value (e.g. a missing array element or property). -/
inductive JSValue : Type where
  | jsUndefined : JSValue
  | null : JSValue
  | bool : Bool → JSValue
  | num : Int → JSValue
  | str : String → JSValue
  | arr : List JSValue → JSValue
  | obj : List (String × JSValue) → JSValue

/-- JS truthiness of a value (`if (x)`), as far as the modelled values go. -/
def JSValue.truthy : JSValue → Bool
  | .jsUndefined => false
  | .null => false
  | .bool b => b
  | .num n => decide (n ≠ 0)
  | .str s => decide (s ≠ "")
  | .arr _ => true
  | .obj _ => true

/-- JS `typeof x === 'object'` (null is also "object"). -/
def JSValue.typeofObject : JSValue → Bool
  | .null => true
  | .arr _ => true
  | .obj _ => true
  | _ => false

/-- JS property access `x[k]`: `undefined` on a missing property or on a
non-object (arrays have no named properties we model). -/
def JSValue.getProp : JSValue → String → JSValue
  | .obj fields, k => (mapGet fields k).getD .jsUndefined
  | _, _ => .jsUndefined

/-- JS `Array.isArray`. -/
def JSValue.isArray : JSValue → Bool
  | .arr _ => true
  | _ => false

/-- Elements of an array value; `[]` when not an array. -/
def JSValue.elems : JSValue → List JSValue
  | .arr xs => xs
  | _ => []

/-- JS array element access `xs[i]`, yielding `undefined` out of range. -/
def JSValue.elem (j : JSValue) (i : Nat) : JSValue :=
  (j.elems.get? i).getD .jsUndefined

/-- JS `typeof x === 'string'` check together with the extraction the code
performs on identifiers. -/
def JSValue.asString : JSValue → Option String
  | .str s => some s
  | _ => none

/-- JS strict equality of a value against a given string constant. -/
def JSValue.eqStr : JSValue → String → Bool
  | .str s, t => s = t
  | _, _ => false

/-- A vertex (class `Vertex` of graph.ts). The mutable `adjacentEdges` set is
stored in the owning graph's `adj` table keyed by `ref`, because JS shares the
one mutable set between the graph and every edge referencing the vertex. -/
structure Vertex (α : Type) : Type where
  ref : Ref
  graphRef : Ref
  id : String
  data : α
deriving DecidableEq, Repr

/-- An edge (class `Edge` of graph.ts). Endpoints are the vertex records as
seen at creation time; vertex records are immutable in the model so this is
exactly the JS object reference. -/
structure Edge (α β : Type) : Type where
  ref : Ref
  graphRef : Ref
  id : String
  u : Vertex α
  v : Vertex α
  directed : Bool
  data : β
deriving DecidableEq, Repr

/-- A path (class `Path` of graph.ts): a start vertex and an edge list.
The derived `#vertices` cache is not observable and is not modelled. -/
structure Path (α β : Type) : Type where
  start : Option (Vertex α)
  edges : List (Edge α β)
deriving DecidableEq, Repr

/-- Model of `new Path(graph, start)` / `Graph.createPath`. -/
def Path.create {α β : Type} (start : Vertex α) : Path α β :=
  ⟨some start, []⟩

/-- Model of `Path.prototype.copy`: an independent copy; pure values make it the
identity. -/
def Path.copy {α β : Type} (p : Path α β) : Path α β := p

/-- Model of `Path.prototype.addEdge` (the graph-ownership throw cannot fire in the
executions we verify, where every edge belongs to the traversed graph;
see `Graph.SolverWF`). -/
def Path.addEdge {α β : Type} (p : Path α β) (e : Edge α β) : Path α β :=
  { start := p.start <|> some e.u, edges := p.edges ++ [e] }

/-- JS `Set.prototype.add` on a set of edges (identity = `ref`). -/
def setAdd {α β : Type} (s : List (Edge α β)) (e : Edge α β) :
    List (Edge α β) :=
  if s.any (fun x => x.ref = e.ref) then s else s ++ [e]

/-- JS `Set.prototype.delete` on a set of edges (identity = `ref`). -/
def setDelete {α β : Type} (s : List (Edge α β)) (e : Edge α β) :
    List (Edge α β) :=
  s.filter (fun x => ¬ x.ref = e.ref)

/-- A graph (class `Graph` of graph.ts). `adj` holds each vertex object's
`adjacentEdges` set, keyed by the vertex's allocation ref. `nextRef` is the
allocation counter producing fresh object identities. -/
structure Graph (α β : Type) : Type where
  ref : Ref
  directed : Bool
  weights : Edge α β → Int
  vertices : List (String × Vertex α)
  edges : List (String × Edge α β)
  adj : List (Ref × List (Edge α β))
  nextRef : Ref

/-- Model of `new Graph(opts)`; `gref` is the identity of the new graph object. -/
def Graph.new (α β : Type) (gref : Ref) (directed : Bool := false)
    (weights : Edge α β → Int := fun _ => 1) : Graph α β :=
  ⟨gref, directed, weights, [], [], [], 0⟩

/-- The `adjacentEdges` set of the vertex object with allocation ref `r`. -/
def Graph.adjOf {α β : Type} (G : Graph α β) (r : Ref) : List (Edge α β) :=
  (mapGet G.adj r).getD []

/-- Replace the `adjacentEdges` set of the vertex object with ref `r`. -/
def Graph.adjPut {α β : Type} (G : Graph α β) (r : Ref)
    (s : List (Edge α β)) : Graph α β :=
  { G with adj := mapSet G.adj r s }

/-- Model of `Graph.prototype.createVertex(data, id)`. The model always receives the
identifier explicitly; a freshly generated UUID is just a particular caller
choice. Note the source never checks whether `id` is already taken: `Map.set`
silently overwrites the existing entry in place. -/
def Graph.createVertex {α β : Type} (G : Graph α β) (data : α) (id : String) :
    Vertex α × Graph α β :=
  let V : Vertex α := ⟨G.nextRef, G.ref, id, data⟩
  (V, { G with
        vertices := mapSet G.vertices id V
        adj := mapSet G.adj V.ref []
        nextRef := G.nextRef + 1 })

/-- Model of `Graph.prototype.createEdge(u, v, data, opts)`. The `Edge` constructor
throws before any registration happens when an endpoint belongs to a different
graph object, so in that case the graph is returned to the caller unchanged
(the model's `Except.error` carries the message). `directed?` is
`opts.directed`, defaulting to the graph's flag; `id` is `opts.id` (or the
freshly generated UUID). The source registers in `v`'s adjacency set before
`u`'s. -/
def Graph.createEdgeCore {α β : Type} (G : Graph α β) (u v : Vertex α)
    (data : β) (dir : Bool) (id : String) : Edge α β × Graph α β :=
  let E : Edge α β := ⟨G.nextRef, G.ref, id, u, v, dir, data⟩
  let G₁ := { G with edges := mapSet G.edges id E, nextRef := G.nextRef + 1 }
  let G₂ := G₁.adjPut v.ref (setAdd (G₁.adjOf v.ref) E)
  let G₃ := G₂.adjPut u.ref (setAdd (G₂.adjOf u.ref) E)
  (E, G₃)

def Graph.createEdge {α β : Type} (G : Graph α β) (u v : Vertex α) (data : β)
    (directed? : Option Bool) (id : String) :
    Except String (Edge α β × Graph α β) :=
  if u.graphRef ≠ v.graphRef ∨ u.graphRef ≠ G.ref then
    .error "Both vertices and the new edge must all belong to the same graph."
  else
    .ok (G.createEdgeCore u v data (directed?.getD G.directed) id)

/-- Model of `Graph.prototype.deleteEdge(E)`: remove `E` from both endpoints'
adjacency sets, then delete its id from the edge map. -/
def Graph.deleteEdge {α β : Type} (G : Graph α β) (E : Edge α β) :
    Graph α β :=
  let G₁ := G.adjPut E.u.ref (setDelete (G.adjOf E.u.ref) E)
  let G₂ := G₁.adjPut E.v.ref (setDelete (G₁.adjOf E.v.ref) E)
  { G₂ with edges := mapDelete G₂.edges E.id }

/-- Model of `Graph.prototype.deleteVertex(V)`: delete every edge in `V.adjacentEdges`,
then remove `V.id` from the vertex map. Each `E.delete()` removes exactly the
edge being visited from the iterated set, so the JS live iteration visits
precisely the elements of the snapshot, in order. -/
def Graph.deleteVertex {α β : Type} (G : Graph α β) (V : Vertex α) :
    Graph α β :=
  let G₁ := (G.adjOf V.ref).foldl (fun g e => g.deleteEdge e) G
  { G₁ with vertices := mapDelete G₁.vertices V.id }

/-- The signature constant `Graph.signature`. -/
def Graph.signature : String :=
  "Made with love by MindfulMinun <https://benjic.xyz>"

/-- Model of `Graph.prototype.toJSON` with the default (identity) replacers, on graphs
whose payloads are JS values. -/
def Graph.toJSON (G : Graph JSValue JSValue) : JSValue :=
  .obj [("@graph", .str Graph.signature),
        ("v", .arr (G.vertices.map (fun p => .arr [.str p.2.id, p.2.data]))),
        ("e", .arr (G.edges.map (fun p =>
          .arr [.str p.2.id, .str p.2.u.id, .str p.2.v.id,
                .bool p.2.directed, p.2.data])))]

/-- One step of the `fromJSON` vertex loop. -/
def fromJSONVertex (G : Graph JSValue JSValue) (V : JSValue) :
    Except String (Graph JSValue JSValue) := do
  if ¬ V.isArray then throw "Failed to parse: One of the vertices isn't a tuple!"
  match (V.elem 0).asString with
  | none => throw "Failed to parse: Unexpected UUID!"
  | some uuid => pure ((G.createVertex (V.elem 1) uuid).2)

/-- One step of the `fromJSON` edge loop. The raw `isDirected` value is not
validated by the source; it is stored as is and only ever observed through JS
truthiness, which the model applies up front. -/
def fromJSONEdge (G : Graph JSValue JSValue) (E : JSValue) :
    Except String (Graph JSValue JSValue) := do
  if ¬ E.isArray then throw "Failed to parse: One of the edges isn't a tuple!"
  match (E.elem 0).asString with
  | none => throw "Failed to parse: UUID wasn't a string!"
  | some uuid =>
    match (E.elem 1).asString with
    | none => throw "Failed to parse: U wasn't a string!"
    | some us =>
      match (E.elem 2).asString with
      | none => throw "Failed to parse: V wasn't a string!"
      | some vs =>
        match mapGet G.vertices us with
        | none => throw "Vertex doesn't exist!"
        | some U =>
          match mapGet G.vertices vs with
          | none => throw "Vertex doesn't exist!"
          | some V => do
            let r ← G.createEdge U V (E.elem 4)
              (some (E.elem 3).truthy) uuid
            pure r.2

/-- Model of `Graph.fromJSON` with the default (identity) revivers. The reconstructed
graph object is fresh; its identity is modelled as ref `0`. -/
def Graph.fromJSON (json : JSValue) : Except String (Graph JSValue JSValue) := do
  let G : Graph JSValue JSValue := Graph.new JSValue JSValue 0
  if ¬ (json.truthy && json.typeofObject) then
    throw "Failed to parse: Unexpected object!"
  if ¬ (json.getProp "@graph").eqStr Graph.signature then
    throw "Failed to parse: The object isn't a graph!"
  if ¬ (json.getProp "v").isArray then
    throw "Failed to parse: The vertices property isn't an array!"
  if ¬ (json.getProp "e").isArray then
    throw "Failed to parse: The edges property isn't an array!"
  let G ← (json.getProp "v").elems.foldlM fromJSONVertex G
  let G ← (json.getProp "e").elems.foldlM fromJSONEdge G
  pure G

/-- Model of `Edge.prototype.not`: the endpoint opposite `x` (identity comparison on
the `v` endpoint first, as in the source). -/
def Edge.not {α β : Type} (E : Edge α β) (x : Vertex α) : Vertex α :=
  if E.v.ref ≠ x.ref then E.v else E.u

/-- The traversal's per-edge admission test: the loop body skips `E` when
`E.directed && v !== E.u`. -/
def Edge.allowedFrom {α β : Type} (E : Edge α β) (x : Vertex α) : Bool :=
  !E.directed || x.ref == E.u.ref

/-- Refs of all vertex objects reachable through some adjacency set; every
vertex a traversal can discover is among them. Used for termination. -/
def Graph.edgeEndRefs {α β : Type} (G : Graph α β) : Finset Ref :=
  (G.adj.flatMap (fun p => p.2.flatMap (fun e => [e.u.ref, e.v.ref]))).toFinset

/-- One iteration of the BFS neighbour loop, acting on
(queue, discovered, backPaths). Mirrors the source: skip disallowed edges,
skip discovered neighbours, otherwise mark discovered, extend the popped
vertex's path by `E`, record it, and enqueue the neighbour. -/
def bfsStep {α β : Type} (v : Vertex α)
    (st : List (Vertex α) × List Ref × List (Ref × Path α β)) (E : Edge α β) :
    List (Vertex α) × List Ref × List (Ref × Path α β) :=
  if E.allowedFrom v then
    let w := E.not v
    if w.ref ∈ st.2.1 then st
    else (st.1 ++ [w], st.2.1 ++ [w.ref],
          mapSet st.2.2 w.ref
            (((mapGet st.2.2 v.ref).getD (Path.create v)).copy.addEdge E))
  else st

/-- Termination measure for the BFS loop: twice the undiscovered portion of
the reachable-vertex universe plus the queue length. -/
def bfsMeasure {α β : Type} (G : Graph α β) (d : List Ref)
    (q : List (Vertex α)) : Nat :=
  2 * (G.edgeEndRefs.filter (fun r => r ∉ d)).card + q.length

theorem bfsStep_measure {α β : Type} (G : Graph α β) (v : Vertex α)
    (st : List (Vertex α) × List Ref × List (Ref × Path α β)) (E : Edge α β)
    (hu : E.u.ref ∈ G.edgeEndRefs) (hv : E.v.ref ∈ G.edgeEndRefs) :
    bfsMeasure G (bfsStep v st E).2.1 (bfsStep v st E).1 ≤
      bfsMeasure G st.2.1 st.1 := by
  unfold bfsStep
  by_cases hA : E.allowedFrom v = true
  · simp only [hA, if_true]
    by_cases hD : (E.not v).ref ∈ st.2.1
    · simp [hD]
    · simp only [hD, if_false]
      have hw : (E.not v).ref ∈ G.edgeEndRefs := by
        unfold Edge.not
        by_cases h : E.v.ref ≠ v.ref <;> simp [h, hu, hv]
      have hfil :
          G.edgeEndRefs.filter (fun r => r ∉ st.2.1 ++ [(E.not v).ref]) =
            (G.edgeEndRefs.filter (fun r => r ∉ st.2.1)).erase (E.not v).ref := by
        ext r
        simp only [Finset.mem_filter, Finset.mem_erase, List.mem_append,
          List.mem_singleton]
        tauto
      have hmem : (E.not v).ref ∈ G.edgeEndRefs.filter (fun r => r ∉ st.2.1) :=
        Finset.mem_filter.mpr ⟨hw, hD⟩
      have hpos : 0 < (G.edgeEndRefs.filter (fun r => r ∉ st.2.1)).card :=
        Finset.card_pos.mpr ⟨_, hmem⟩
      have hcard := Finset.card_erase_of_mem hmem
      simp only [bfsMeasure, hfil, hcard, List.length_append,
        List.length_singleton]
      omega
  · simp [hA]

theorem bfsFold_measure {α β : Type} (G : Graph α β) (v : Vertex α)
    (es : List (Edge α β))
    (h : ∀ E ∈ es, E.u.ref ∈ G.edgeEndRefs ∧ E.v.ref ∈ G.edgeEndRefs) :
    ∀ st, bfsMeasure G (es.foldl (bfsStep v) st).2.1
        (es.foldl (bfsStep v) st).1 ≤ bfsMeasure G st.2.1 st.1 := by
  induction es with
  | nil => intro st; simp
  | cons E es ih =>
    intro st
    have h1 := bfsStep_measure G v st E (h E (by simp)).1 (h E (by simp)).2
    have h2 := ih (fun F hF => h F (by simp [hF])) (bfsStep v st E)
    simpa using le_trans h2 h1

theorem adjOf_mem_edgeEndRefs {α β : Type} (G : Graph α β) (r : Ref)
    (E : Edge α β) (hE : E ∈ G.adjOf r) :
    E.u.ref ∈ G.edgeEndRefs ∧ E.v.ref ∈ G.edgeEndRefs := by
  unfold Graph.adjOf mapGet at hE
  cases hfind : G.adj.find? (fun p => p.1 = r) with
  | none => simp [hfind] at hE
  | some p =>
    simp only [hfind, Option.map_some', Option.getD_some] at hE
    have hp : p ∈ G.adj := List.mem_of_find?_eq_some hfind
    constructor <;>
    · unfold Graph.edgeEndRefs
      rw [List.mem_toFinset, List.mem_flatMap]
      exact ⟨p, hp, List.mem_flatMap.mpr ⟨E, hE, by simp⟩⟩

/-- The BFS main loop of `GraphSolver.BFS` (part_003): drain the queue
(`for (const v of queue)`), test the search predicate, return the recorded
path on success, otherwise expand the adjacency set and continue; `none`
when the queue empties. -/
def bfsLoop {α β : Type} (G : Graph α β) (pred : Vertex α → Bool) :
    (q : List (Vertex α)) → (d : List Ref) → (P : List (Ref × Path α β)) →
    Option (Path α β)
  | [], _, _ => none
  | v :: rest, d, P =>
    if pred v then mapGet P v.ref
    else
      let st := (G.adjOf v.ref).foldl (bfsStep v) (rest, d, P)
      bfsLoop G pred st.1 st.2.1 st.2.2
termination_by q d _ => bfsMeasure G d q
decreasing_by
  have hfold := bfsFold_measure G v (G.adjOf v.ref)
    (fun E hE => adjOf_mem_edgeEndRefs G v.ref E hE) (rest, d, P)
  simp only [bfsMeasure, List.length_cons] at *
  omega

/-- Model of `GraphSolver.prototype.BFS(root, search)` from part_003, with the search
function specialised to a pure predicate on the visited vertex. -/
def GraphSolver.BFS {α β : Type} (G : Graph α β) (root : Vertex α)
    (pred : Vertex α → Bool) : Option (Path α β) :=
  bfsLoop G pred [root] [root.ref] [(root.ref, Path.create root)]

/-- One iteration of the DFS neighbour loop from part_003. Note: unlike BFS,
the source has no `discovered` set here — every allowed neighbour is pushed,
already-visited or not. -/
def dfsStep {α β : Type} (v : Vertex α)
    (st : List (Vertex α) × List (Ref × Path α β)) (E : Edge α β) :
    List (Vertex α) × List (Ref × Path α β) :=
  if E.allowedFrom v then
    let w := E.not v
    (w :: st.1,
     mapSet st.2 w.ref
       (((mapGet st.2 v.ref).getD (Path.create v)).copy.addEdge E))
  else st

/-- The DFS main loop of `GraphSolver.DFS` (part_003), indexed by fuel: the
source loop has no step bound, so `none` means "still running after `fuel`
iterations" — if that holds for every fuel, the JS loop never finishes.
`some r` is an actual return with value `r` (`some path` or `null`). -/
def dfsLoopFuel {α β : Type} (G : Graph α β) (pred : Vertex α → Bool) :
    Nat → List (Vertex α) → List (Ref × Path α β) →
    Option (Option (Path α β))
  | 0, _, _ => none
  | _ + 1, [], _ => some none
  | fuel + 1, v :: rest, P =>
    if pred v then some (mapGet P v.ref)
    else
      let st := (G.adjOf v.ref).foldl (dfsStep v) (rest, P)
      dfsLoopFuel G pred fuel st.1 st.2

/-- Model of `GraphSolver.prototype.DFS(root, search)` from part_003, fuel-indexed
as explained at `dfsLoopFuel`. -/
def GraphSolver.DFS {α β : Type} (G : Graph α β) (root : Vertex α)
    (pred : Vertex α → Bool) (fuel : Nat) : Option (Option (Path α β)) :=
  dfsLoopFuel G pred fuel [root] [(root.ref, Path.create root)]

/-- A binary min heap (src/tools/structures/Heap.ts): a three-way comparator
and the backing array. -/
structure BinaryHeap (γ : Type) : Type where
  cmp : γ → γ → Int
  elements : List γ

/-- The `while` loop of `BinaryHeap.#bubbleUp`: shift greater parents down,
returning the final array and the resting index for `val`. -/
def bubbleUpLoop {γ : Type} (cmp : γ → γ → Int) (val : γ) :
    (elems : List γ) → (current : Nat) → List γ × Nat
  | elems, current =>
    if h : 0 < current ∧ cmp val (elems.getD ((current - 1) / 2) val) < 0 then
      bubbleUpLoop cmp val
        (elems.set current (elems.getD ((current - 1) / 2) val))
        ((current - 1) / 2)
    else (elems, current)
termination_by _ current => current
decreasing_by
  have h1 : (current - 1) / 2 ≤ current - 1 := Nat.div_le_self _ _
  omega

/-- Model of `BinaryHeap.prototype.push`: append then bubble up. -/
def BinaryHeap.push {γ : Type} (h : BinaryHeap γ) (x : γ) : BinaryHeap γ :=
  let elems := h.elements ++ [x]
  let idx := elems.length - 1
  if idx = 0 then ⟨h.cmp, elems⟩
  else
    let r := bubbleUpLoop h.cmp x elems idx
    ⟨h.cmp, r.1.set r.2 x⟩

/-- The index of the smaller child inside `BinaryHeap.#bubbleDown`. -/
def heapSmallest {γ : Type} (cmp : γ → γ → Int) (val : γ) (elems : List γ)
    (current : Nat) : Nat :=
  if 2 * current + 2 < elems.length ∧
      0 < cmp (elems.getD (2 * current + 1) val)
          (elems.getD (2 * current + 2) val)
  then 2 * current + 2 else 2 * current + 1

theorem lt_heapSmallest {γ : Type} (cmp : γ → γ → Int) (val : γ)
    (elems : List γ) (current : Nat) :
    current < heapSmallest cmp val elems current := by
  unfold heapSmallest; split <;> omega

theorem heapSmallest_lt {γ : Type} (cmp : γ → γ → Int) (val : γ)
    (elems : List γ) (current : Nat) (h : 2 * current + 1 < elems.length) :
    heapSmallest cmp val elems current < elems.length := by
  unfold heapSmallest; split <;> omega

/-- The `while` loop of `BinaryHeap.#bubbleDown`: shift the smaller child up
while it compares below `val`, returning the final array and resting index. -/
def bubbleDownLoop {γ : Type} (cmp : γ → γ → Int) (val : γ) :
    (elems : List γ) → (current : Nat) → List γ × Nat
  | elems, current =>
    if 2 * current + 1 < elems.length then
      if cmp val (elems.getD (heapSmallest cmp val elems current) val) ≤ 0 then
        (elems, current)
      else
        bubbleDownLoop cmp val
          (elems.set current (elems.getD (heapSmallest cmp val elems current) val))
          (heapSmallest cmp val elems current)
    else (elems, current)
termination_by elems current => elems.length - current
decreasing_by
  have h1 := lt_heapSmallest cmp val elems current
  simp only [List.length_set]
  omega

theorem bubbleDownLoop_length_fuel {γ : Type} (cmp : γ → γ → Int) (val : γ) :
    ∀ n elems current, elems.length ≤ current + n →
      (bubbleDownLoop cmp val elems current).1.length = elems.length := by
  intro n
  induction n with
  | zero =>
    intro elems current h
    rw [bubbleDownLoop]
    have : ¬ 2 * current + 1 < elems.length := by omega
    simp [this]
  | succ n ih =>
    intro elems current h
    rw [bubbleDownLoop]
    by_cases hl : 2 * current + 1 < elems.length
    · simp only [hl, if_true]
      split
      · rfl
      · have hs := lt_heapSmallest cmp val elems current
        have := ih (elems.set current
            (elems.getD (heapSmallest cmp val elems current) val))
          (heapSmallest cmp val elems current) (by simp; omega)
        simpa using this
    · simp [hl]

theorem bubbleDownLoop_length {γ : Type} (cmp : γ → γ → Int) (val : γ)
    (elems : List γ) (current : Nat) :
    (bubbleDownLoop cmp val elems current).1.length = elems.length :=
  bubbleDownLoop_length_fuel cmp val elems.length elems current (by omega)

/-- Model of `BinaryHeap.prototype.pop`: swap root and last, remove the last element,
bubble the new root down. `none` on an empty heap. -/
def BinaryHeap.pop {γ : Type} (h : BinaryHeap γ) : Option (γ × BinaryHeap γ) :=
  match h.elements with
  | [] => none
  | e0 :: tl =>
    let last := (e0 :: tl).getLast (by simp)
    let swapped := ((e0 :: tl).set 0 last).set ((e0 :: tl).length - 1) e0
    let rest := swapped.dropLast
    match rest with
    | [] => some (e0, ⟨h.cmp, []⟩)
    | r0 :: rs =>
      let d := bubbleDownLoop h.cmp r0 (r0 :: rs) 0
      some (e0, ⟨h.cmp, d.1.set d.2 r0⟩)

theorem BinaryHeap.pop_length {γ : Type} (h : BinaryHeap γ) (x : γ)
    (h' : BinaryHeap γ) (hp : h.pop = some (x, h')) :
    h'.elements.length + 1 = h.elements.length := by
  unfold BinaryHeap.pop at hp
  split at hp
  · exact absurd hp (by simp)
  · rename_i e0 tl hm
    dsimp only at hp
    split at hp
    · rename_i hrest
      cases hp
      have h1 := congrArg List.length hrest
      simp only [List.length_dropLast, List.length_set, List.length_cons,
        List.length_nil] at h1
      simp only [hm, List.length_cons, List.length_nil]
      omega
    · rename_i r0 rs hrest
      cases hp
      have h1 := congrArg List.length hrest
      simp only [List.length_dropLast, List.length_set, List.length_cons] at h1
      simp only [List.length_set, bubbleDownLoop_length, List.length_cons, hm]
      omega

/-- Iterating a heap (`Symbol.iterator`): pop until empty. -/
def BinaryHeap.drain {γ : Type} (h : BinaryHeap γ) : List γ :=
  match hp : h.pop with
  | none => []
  | some (x, h') => x :: h'.drain
termination_by h.elements.length
decreasing_by
  have := BinaryHeap.pop_length h x h' hp
  omega

/-- Model of `new BinaryHeap(comparator, initials)`: push each initial element. The
default is no initial elements at all. -/
def BinaryHeap.new {γ : Type} (cmp : γ → γ → Int)
    (initials : List γ := []) : BinaryHeap γ :=
  initials.foldl BinaryHeap.push ⟨cmp, []⟩

/-- The disjoint set structure (src/tools/structures/DisjointSet.ts). -/
structure DisjointSet : Type where
  parent : List Nat
  rank : List Nat
  map : List (String × Nat)
  mapCount : Nat

/-- Model of `new DisjointSet()` with no initial elements. -/
def DisjointSet.empty : DisjointSet := ⟨[], [], [], 0⟩

/-- Model of `DisjointSet.prototype.makeSet`. -/
def DisjointSet.makeSet (d : DisjointSet) (x : String) : DisjointSet :=
  ⟨d.parent ++ [d.mapCount], d.rank ++ [0], mapSet d.map x d.mapCount,
   d.mapCount + 1⟩

/-- The recursive private `findIndex` with path compression, fuel-indexed:
on the forest-shaped states the class maintains, the recursion depth is below
the array length, which is the fuel `find` supplies. Returns the root and
the compressed parent array. -/
def DisjointSet.findIndexFuel : Nat → List Nat → Nat → Nat × List Nat
  | 0, par, i => (par.getD i 0, par)
  | fuel + 1, par, i =>
    let pi := par.getD i 0
    if pi = i then (i, par)
    else
      let r := DisjointSet.findIndexFuel fuel par pi
      (r.1, r.2.set i r.1)

/-- Model of `DisjointSet.prototype.find`: a fatal error on an unregistered element,
otherwise the compressed lookup. -/
def DisjointSet.find (d : DisjointSet) (x : String) :
    Except String (Nat × DisjointSet) :=
  match mapGet d.map x with
  | none => .error "Element not found"
  | some i =>
    let r := DisjointSet.findIndexFuel d.parent.length d.parent i
    .ok (r.1, { d with parent := r.2 })

/-- Model of `DisjointSet.prototype.union`: union by rank. -/
def DisjointSet.union (d : DisjointSet) (a b : String) :
    Except String DisjointSet := do
  let ra ← d.find a
  let rb ← ra.2.find b
  let aIndex := ra.1
  let bIndex := rb.1
  let d₂ := rb.2
  if aIndex = bIndex then pure d₂
  else if d₂.rank.getD aIndex 0 < d₂.rank.getD bIndex 0 then
    pure { d₂ with parent := d₂.parent.set aIndex bIndex }
  else if d₂.rank.getD bIndex 0 < d₂.rank.getD aIndex 0 then
    pure { d₂ with parent := d₂.parent.set bIndex aIndex }
  else
    pure { d₂ with parent := d₂.parent.set bIndex aIndex,
                   rank := d₂.rank.set aIndex (d₂.rank.getD aIndex 0 + 1) }

/-- Model of `GraphSolver.prototype.kruskalPresorted(edges?)` from part_003. With no
argument the edge source is `new BinaryHeap((a, b) => weights(a) - weights(b))`
— constructed with no initial elements and never pushed into, so draining it
yields nothing. The forest is a JS `Set` of edges in insertion order. The
`DisjointSet.find` error propagates as in JS (a thrown `Error`). -/
def GraphSolver.kruskalPresorted {α β : Type} (G : Graph α β)
    (edges? : Option (List (Edge α β))) :
    Except String (List (Edge α β)) := do
  let djs := G.vertices.foldl (fun d p => d.makeSet p.2.id) DisjointSet.empty
  let sortedEdges : List (Edge α β) :=
    match edges? with
    | some es => es
    | none => (BinaryHeap.new (fun a b => G.weights a - G.weights b)).drain
  let r ← sortedEdges.foldlM
    (fun (st : List (Edge α β) × DisjointSet) E => do
      let fu ← st.2.find E.u.id
      let fv ← fu.2.find E.v.id
      if fu.1 ≠ fv.1 then
        let d₃ ← fv.2.union E.u.id E.v.id
        pure (setAdd st.1 E, d₃)
      else pure (st.1, fv.2))
    ([], djs)
  pure r.1

/-- Model of `GraphSolver.prototype.sortEdgesByWeight` from part_003: permanently
replace the graph's edge map by one built from the edge values sorted by
ascending weight (JS `Array.prototype.sort` is stable). -/
def GraphSolver.sortEdgesByWeight {α β : Type} (G : Graph α β) : Graph α β :=
  let sorted := (G.edges.map (·.2)).mergeSort
    (fun a b => decide (G.weights a ≤ G.weights b))
  let newEdges :=
    (sorted.map (fun e => (e.id, e))).foldl (fun m p => mapSet m p.1 p.2) []
  { G with edges := newEdges }

/-- Model of `GraphSolver.prototype.kruskalWithSort` from part_003: sort, then run
`kruskalPresorted()` with no argument. The sorted graph is returned as well,
since the re-sort is a permanent mutation. -/
def GraphSolver.kruskalWithSort {α β : Type} (G : Graph α β) :
    Except String (List (Edge α β)) × Graph α β :=
  let G' := GraphSolver.sortEdgesByWeight G
  (GraphSolver.kruskalPresorted G' none, G')

/-! ### Association-list (JS `Map`) lemmas -/

theorem mapGet_isSome_iff {κ γ : Type} [DecidableEq κ] (m : List (κ × γ))
    (k : κ) : (mapGet m k).isSome = true ↔ k ∈ m.map (·.1) := by
  induction m with
  | nil => simp [mapGet]
  | cons p t ih =>
    by_cases h : p.1 = k
    · simp [mapGet, List.find?, h]
    · simp only [mapGet, List.find?] at ih ⊢
      simp [h, ih, Ne.symm h]

theorem mapGet_mem {κ γ : Type} [DecidableEq κ] (m : List (κ × γ)) (k : κ)
    (x : γ) (h : mapGet m k = some x) : (k, x) ∈ m := by
  unfold mapGet at h
  cases hf : m.find? (fun p => p.1 = k) with
  | none => simp [hf] at h
  | some p =>
    simp only [hf, Option.map_some', Option.some.injEq] at h
    have hm := List.mem_of_find?_eq_some hf
    have hk := List.find?_some hf
    simp only [decide_eq_true_eq] at hk
    subst hk; subst h
    simpa using hm

theorem find_replace_self {κ γ : Type} [DecidableEq κ] (m : List (κ × γ))
    (k : κ) (x : γ) (hmem : ∃ p ∈ m, p.1 = k) :
    (m.map (fun p => if p.1 = k then (k, x) else p)).find?
      (fun p => p.1 = k) = some (k, x) := by
  induction m with
  | nil => simp at hmem
  | cons p t ih =>
    by_cases h : p.1 = k
    · simp [h, List.find?]
    · simp only [List.map_cons, if_neg h, List.find?]
      rw [decide_eq_false h]
      apply ih
      rcases hmem with ⟨q, hq, hqk⟩
      rcases List.mem_cons.mp hq with rfl | hq'
      · exact absurd hqk h
      · exact ⟨q, hq', hqk⟩

theorem find_replace_ne {κ γ : Type} [DecidableEq κ] (m : List (κ × γ))
    (k k' : κ) (x : γ) (hne : k' ≠ k) :
    (m.map (fun p => if p.1 = k then (k, x) else p)).find?
      (fun p => p.1 = k') = m.find? (fun p => p.1 = k') := by
  induction m with
  | nil => rfl
  | cons p t ih =>
    by_cases h : p.1 = k
    · simp only [List.map_cons, if_pos h, List.find?]
      rw [decide_eq_false (fun hc => hne hc.symm), decide_eq_false]
      · exact ih
      · rw [h]; exact fun hc => hne hc.symm
    · simp only [List.map_cons, if_neg h, List.find?]
      by_cases hk' : p.1 = k'
      · rw [decide_eq_true hk']
      · rw [decide_eq_false hk']
        exact ih

theorem find_singleton_self {κ γ : Type} [DecidableEq κ] (k : κ) (x : γ) :
    ([(k, x)] : List (κ × γ)).find? (fun p => p.1 = k) = some (k, x) := by
  simp [List.find?]

theorem mapGet_set_self {κ γ : Type} [DecidableEq κ] (m : List (κ × γ))
    (k : κ) (x : γ) : mapGet (mapSet m k x) k = some x := by
  unfold mapGet mapSet
  by_cases hany : m.any (fun p => p.1 = k)
  · rw [if_pos hany, find_replace_self]
    · rfl
    · simpa using List.any_eq_true.mp hany
  · rw [if_neg hany, List.find?_append]
    have hnone : m.find? (fun p => p.1 = k) = none := by
      rw [List.find?_eq_none]
      intro p hp
      have : ¬ p.1 = k := by
        intro hc
        exact hany (List.any_eq_true.mpr ⟨p, hp, by simpa using hc⟩)
      simpa using this
    rw [hnone, Option.none_or, find_singleton_self]
    rfl

theorem mapGet_set_ne {κ γ : Type} [DecidableEq κ] (m : List (κ × γ))
    (k k' : κ) (x : γ) (hne : k' ≠ k) :
    mapGet (mapSet m k x) k' = mapGet m k' := by
  unfold mapGet mapSet
  by_cases hany : m.any (fun p => p.1 = k)
  · rw [if_pos hany, find_replace_ne _ _ _ _ hne]
  · rw [if_neg hany, List.find?_append]
    have hkk : ¬ (k = k') := fun hc => hne hc.symm
    have hsing : ([(k, x)] : List (κ × γ)).find? (fun p => p.1 = k') = none := by
      simp [List.find?, hkk]
    rw [hsing]
    cases m.find? (fun p => p.1 = k') <;> rfl

theorem mapSet_keys_of_mem {κ γ : Type} [DecidableEq κ] (m : List (κ × γ))
    (k : κ) (x : γ) (hany : m.any (fun p => decide (p.1 = k)) = true) :
    (mapSet m k x).map (·.1) = m.map (·.1) := by
  unfold mapSet
  rw [if_pos hany]
  rw [List.map_map]
  apply List.map_congr_left
  intro p _
  by_cases h : p.1 = k <;> simp [h]

theorem mapSet_append_of_not_mem {κ γ : Type} [DecidableEq κ]
    (m : List (κ × γ)) (k : κ) (x : γ)
    (h : ¬ m.any (fun p => decide (p.1 = k)) = true) :
    mapSet m k x = m ++ [(k, x)] := by
  unfold mapSet
  rw [if_neg h]

theorem mapGet_delete_self {κ γ : Type} [DecidableEq κ] (m : List (κ × γ))
    (k : κ) : mapGet (mapDelete m k) k = none := by
  unfold mapGet mapDelete
  rw [List.find?_eq_none.mpr]
  · rfl
  · intro p hp
    have := List.of_mem_filter hp
    simpa using this

theorem mapDelete_idem {κ γ : Type} [DecidableEq κ] (m : List (κ × γ))
    (k : κ) : mapDelete (mapDelete m k) k = mapDelete m k := by
  unfold mapDelete
  induction m with
  | nil => rfl
  | cons p t ih =>
    by_cases h : p.1 = k <;> simp [List.filter, h, ih]

theorem setDelete_idem {α β : Type} (s : List (Edge α β)) (E : Edge α β) :
    setDelete (setDelete s E) E = setDelete s E := by
  unfold setDelete
  induction s with
  | nil => rfl
  | cons x t ih =>
    by_cases h : x.ref = E.ref <;> simp [List.filter, h, ih]

theorem setDelete_subset {α β : Type} (s : List (Edge α β)) (E : Edge α β) :
    ∀ x ∈ setDelete s E, x ∈ s := by
  intro x hx
  exact List.mem_of_mem_filter hx

theorem setDelete_not_ref {α β : Type} (s : List (Edge α β)) (E : Edge α β) :
    ∀ x ∈ setDelete s E, x.ref ≠ E.ref := by
  intro x hx
  have := List.of_mem_filter hx
  simpa using this

/-! ### Observable effect of `deleteEdge` and `deleteVertex` -/

theorem adjOf_adjPut_self {α β : Type} (G : Graph α β) (r : Ref)
    (sl : List (Edge α β)) : (G.adjPut r sl).adjOf r = sl := by
  simp [Graph.adjPut, Graph.adjOf, mapGet_set_self]

theorem adjOf_adjPut_ne {α β : Type} (G : Graph α β) (r r' : Ref)
    (sl : List (Edge α β)) (h : r' ≠ r) :
    (G.adjPut r sl).adjOf r' = G.adjOf r' := by
  simp [Graph.adjPut, Graph.adjOf, mapGet_set_ne _ _ _ _ h]

theorem deleteEdge_edges {α β : Type} (G : Graph α β) (E : Edge α β) :
    (G.deleteEdge E).edges = mapDelete G.edges E.id := rfl

theorem deleteEdge_vertices {α β : Type} (G : Graph α β) (E : Edge α β) :
    (G.deleteEdge E).vertices = G.vertices := rfl

theorem deleteEdge_adjOf_v {α β : Type} (G : Graph α β) (E : Edge α β) :
    (G.deleteEdge E).adjOf E.v.ref = setDelete (G.adjOf E.v.ref) E := by
  show ((G.adjPut E.u.ref (setDelete (G.adjOf E.u.ref) E)).adjPut E.v.ref
      (setDelete ((G.adjPut E.u.ref (setDelete (G.adjOf E.u.ref) E)).adjOf
        E.v.ref) E)).adjOf E.v.ref = _
  rw [adjOf_adjPut_self]
  by_cases h : E.v.ref = E.u.ref
  · rw [h, adjOf_adjPut_self, setDelete_idem]
  · rw [adjOf_adjPut_ne _ _ _ _ h]

theorem deleteEdge_adjOf_u {α β : Type} (G : Graph α β) (E : Edge α β) :
    (G.deleteEdge E).adjOf E.u.ref = setDelete (G.adjOf E.u.ref) E := by
  by_cases h : E.u.ref = E.v.ref
  · rw [h]
    rw [show (G.deleteEdge E).adjOf E.v.ref = setDelete (G.adjOf E.v.ref) E
      from deleteEdge_adjOf_v G E]
  · show ((G.adjPut E.u.ref (setDelete (G.adjOf E.u.ref) E)).adjPut E.v.ref
        (setDelete ((G.adjPut E.u.ref (setDelete (G.adjOf E.u.ref) E)).adjOf
          E.v.ref) E)).adjOf E.u.ref = _
    rw [adjOf_adjPut_ne _ _ _ _ h, adjOf_adjPut_self]

theorem deleteEdge_adjOf_other {α β : Type} (G : Graph α β) (E : Edge α β)
    (r : Ref) (hu : r ≠ E.u.ref) (hv : r ≠ E.v.ref) :
    (G.deleteEdge E).adjOf r = G.adjOf r := by
  show ((G.adjPut E.u.ref (setDelete (G.adjOf E.u.ref) E)).adjPut E.v.ref
      (setDelete ((G.adjPut E.u.ref (setDelete (G.adjOf E.u.ref) E)).adjOf
        E.v.ref) E)).adjOf r = _
  rw [adjOf_adjPut_ne _ _ _ _ hv, adjOf_adjPut_ne _ _ _ _ hu]

theorem deleteEdge_adjOf {α β : Type} (G : Graph α β) (E : Edge α β)
    (r : Ref) :
    (G.deleteEdge E).adjOf r =
      if r = E.u.ref ∨ r = E.v.ref then setDelete (G.adjOf r) E
      else G.adjOf r := by
  by_cases hv : r = E.v.ref
  · subst hv; simp [deleteEdge_adjOf_v]
  · by_cases hu : r = E.u.ref
    · subst hu; simp [deleteEdge_adjOf_u]
    · simp [hu, hv, deleteEdge_adjOf_other G E r hu hv]

theorem deleteEdge_adjOf_subset {α β : Type} (G : Graph α β) (E : Edge α β)
    (r : Ref) : ∀ x ∈ (G.deleteEdge E).adjOf r, x ∈ G.adjOf r := by
  intro x hx
  rw [deleteEdge_adjOf] at hx
  split at hx
  · exact setDelete_subset _ _ x hx
  · exact hx

theorem foldl_deleteEdge_vertices {α β : Type} (es : List (Edge α β)) :
    ∀ g : Graph α β,
      (es.foldl (fun g e => Graph.deleteEdge g e) g).vertices = g.vertices := by
  induction es with
  | nil => intro g; rfl
  | cons E es ih =>
    intro g
    rw [List.foldl_cons, ih, deleteEdge_vertices]

theorem foldl_deleteEdge_edges_subset {α β : Type} (es : List (Edge α β)) :
    ∀ g : Graph α β,
      ∀ q ∈ (es.foldl (fun g e => Graph.deleteEdge g e) g).edges,
        q ∈ g.edges := by
  induction es with
  | nil => intro g q hq; exact hq
  | cons E es ih =>
    intro g q hq
    rw [List.foldl_cons] at hq
    have := ih (g.deleteEdge E) q hq
    rw [deleteEdge_edges] at this
    exact List.mem_of_mem_filter this

theorem foldl_deleteEdge_removes {α β : Type} (es : List (Edge α β)) :
    ∀ g : Graph α β, ∀ E ∈ es,
      ∀ q ∈ (es.foldl (fun g e => Graph.deleteEdge g e) g).edges,
        q.1 ≠ E.id := by
  induction es with
  | nil => intro g E hE; simp at hE
  | cons F es ih =>
    intro g E hE q hq
    rw [List.foldl_cons] at hq
    rcases List.mem_cons.mp hE with rfl | hE'
    · have hsub := foldl_deleteEdge_edges_subset es (g.deleteEdge E) q hq
      rw [deleteEdge_edges] at hsub
      have := List.of_mem_filter hsub
      simpa using this
    · exact ih (g.deleteEdge F) E hE' q hq

theorem foldl_deleteEdge_adjOf_subset {α β : Type} (es : List (Edge α β)) :
    ∀ (g : Graph α β) (r : Ref),
      ∀ x ∈ (es.foldl (fun g e => Graph.deleteEdge g e) g).adjOf r,
        x ∈ g.adjOf r := by
  induction es with
  | nil => intro g r x hx; exact hx
  | cons E es ih =>
    intro g r x hx
    rw [List.foldl_cons] at hx
    exact deleteEdge_adjOf_subset g E r x (ih (g.deleteEdge E) r x hx)

theorem foldl_deleteEdge_adj_removes {α β : Type} (es : List (Edge α β)) :
    ∀ g : Graph α β, ∀ E ∈ es,
      (∀ x ∈ (es.foldl (fun g e => Graph.deleteEdge g e) g).adjOf E.u.ref,
        x.ref ≠ E.ref) ∧
      (∀ x ∈ (es.foldl (fun g e => Graph.deleteEdge g e) g).adjOf E.v.ref,
        x.ref ≠ E.ref) := by
  induction es with
  | nil => intro g E hE; simp at hE
  | cons F es ih =>
    intro g E hE
    rcases List.mem_cons.mp hE with rfl | hE'
    · constructor
      · intro x hx
        rw [List.foldl_cons] at hx
        have := foldl_deleteEdge_adjOf_subset es (g.deleteEdge E) E.u.ref x hx
        rw [deleteEdge_adjOf_u] at this
        exact setDelete_not_ref _ _ x this
      · intro x hx
        rw [List.foldl_cons] at hx
        have := foldl_deleteEdge_adjOf_subset es (g.deleteEdge E) E.v.ref x hx
        rw [deleteEdge_adjOf_v] at this
        exact setDelete_not_ref _ _ x this
    · exact ih (g.deleteEdge F) E hE'

/-- Referential coherence of a graph: the invariant the `Graph` factory
methods maintain. Map keys agree with the stored ids, and every edge of the
edge map is registered in both endpoints' adjacency sets. -/
def Graph.Coherent {α β : Type} (G : Graph α β) : Prop :=
  (∀ p ∈ G.vertices, p.1 = p.2.id) ∧
  (∀ p ∈ G.edges, p.1 = p.2.id) ∧
  (∀ p ∈ G.edges, p.2 ∈ G.adjOf p.2.u.ref ∧ p.2 ∈ G.adjOf p.2.v.ref)

instance {α β : Type} [DecidableEq α] [DecidableEq β] (G : Graph α β) :
    Decidable G.Coherent := by
  unfold Graph.Coherent
  infer_instance

/-! ### Concrete graphs used by witnesses and counterexamples -/

/-- The iteration of a freshly constructed empty heap yields nothing. -/
theorem BinaryHeap.drain_mk_nil {γ : Type} (cmp : γ → γ → Int) :
    BinaryHeap.drain ⟨cmp, []⟩ = [] := by
  rw [BinaryHeap.drain]
  rfl

/-- Helper: with no edge argument, `kruskalPresorted` draws its edges from a
freshly constructed, empty binary heap, so the loop never runs and the
returned forest is always empty. -/
theorem kruskalPresorted_none_eq {α β : Type} (G : Graph α β) :
    GraphSolver.kruskalPresorted G none = .ok [] := by
  unfold GraphSolver.kruskalPresorted
  simp [BinaryHeap.new, BinaryHeap.drain_mk_nil]
  rfl

/-- Step one of a two-vertex one-edge graph: the vertex `x`. -/
def pairS1 : Vertex Unit × Graph Unit Unit :=
  (Graph.new Unit Unit 0).createVertex () "x"

/-- Step two: the vertex `y`. -/
def pairS2 : Vertex Unit × Graph Unit Unit := pairS1.2.createVertex () "y"

def pairX : Vertex Unit := pairS1.1

def pairY : Vertex Unit := pairS2.1

def pairRes : Except String (Edge Unit Unit × Graph Unit Unit) :=
  pairS2.2.createEdge pairX pairY () none "xy"

/-- A graph with two vertices joined by a single undirected edge, built
through the factory methods. The error branch is unreachable (both endpoints
belong to the graph, see `pairRes_ok`). -/
def pairG : Graph Unit Unit :=
  match pairRes with
  | .ok r => r.2
  | .error _ => pairS2.2

def pairE : Edge Unit Unit :=
  match pairRes with
  | .ok r => r.1
  | .error _ => ⟨2, 0, "xy", pairX, pairY, false, ()⟩

theorem pairRes_ok : pairRes = .ok (pairE, pairG) := rfl

theorem pairG_adj_x : pairG.adjOf pairX.ref = [pairE] := rfl

theorem pairG_adj_y : pairG.adjOf pairY.ref = [pairE] := rfl

/-- On the two-vertex cycle, each DFS iteration pops one endpoint and pushes
the other back, forever: with a predicate that never accepts, the loop is
still running after any number of iterations. -/
theorem dfs_pair_loops :
    ∀ (fuel : Nat) (x : Vertex Unit), (x = pairX ∨ x = pairY) →
      ∀ P : List (Ref × Path Unit Unit),
        dfsLoopFuel pairG (fun _ => false) fuel [x] P = none := by
  intro fuel
  induction fuel with
  | zero => intro x _ P; rfl
  | succ n ih =>
    intro x hx P
    rcases hx with rfl | rfl
    · exact ih pairY (Or.inr rfl) _
    · exact ih pairX (Or.inl rfl) _

/-! ### Parsing: characterisation of `fromJSON` -/

theorem except_bind_ok {ε σ τ : Type} (a : Except ε σ) (f : σ → Except ε τ)
    (c : τ) (h : (a >>= f) = .ok c) : ∃ b, a = .ok b ∧ f b = .ok c := by
  cases a with
  | error e => simp [Bind.bind, Except.bind] at h
  | ok b => exact ⟨b, rfl, by simpa [Bind.bind, Except.bind] using h⟩

theorem createEdge_eq_ok {α β : Type} (G : Graph α β) (u v : Vertex α)
    (data : β) (d? : Option Bool) (id : String)
    (hu : u.graphRef = G.ref) (hv : v.graphRef = G.ref) :
    G.createEdge u v data d? id =
      .ok (G.createEdgeCore u v data (d?.getD G.directed) id) := by
  unfold Graph.createEdge
  rw [if_neg]
  push_neg
  exact ⟨hu.trans hv.symm, hu⟩

theorem createEdgeCore_vertices {α β : Type} (G : Graph α β) (u v : Vertex α)
    (data : β) (dir : Bool) (id : String) :
    (G.createEdgeCore u v data dir id).2.vertices = G.vertices := rfl

theorem createEdgeCore_ref {α β : Type} (G : Graph α β) (u v : Vertex α)
    (data : β) (dir : Bool) (id : String) :
    (G.createEdgeCore u v data dir id).2.ref = G.ref := rfl

theorem createEdgeCore_edges {α β : Type} (G : Graph α β) (u v : Vertex α)
    (data : β) (dir : Bool) (id : String) :
    (G.createEdgeCore u v data dir id).2.edges =
      mapSet G.edges id ⟨G.nextRef, G.ref, id, u, v, dir, data⟩ := rfl

theorem mapSet_keys_subset {κ γ : Type} [DecidableEq κ] (m : List (κ × γ))
    (k : κ) (x : γ) :
    ∀ k' ∈ (mapSet m k x).map (·.1), k' ∈ m.map (·.1) ∨ k' = k := by
  intro k' hk'
  by_cases hany : m.any (fun p => p.1 = k)
  · rw [mapSet_keys_of_mem m k x hany] at hk'
    exact Or.inl hk'
  · rw [mapSet_append_of_not_mem m k x hany, List.map_append] at hk'
    rcases List.mem_append.mp hk' with h | h
    · exact Or.inl h
    · simp at h
      exact Or.inr h

theorem createVertex_keys_subset {α β : Type} (G : Graph α β) (data : α)
    (id : String) :
    ∀ k ∈ (G.createVertex data id).2.vertices.map (·.1),
      k ∈ G.vertices.map (·.1) ∨ k = id :=
  fun k hk => mapSet_keys_subset G.vertices id _ k hk

theorem fromJSONVertex_eq_ok (g : Graph JSValue JSValue) (V : JSValue)
    (uuid : String) (hA : V.isArray = true)
    (hS : (V.elem 0).asString = some uuid) :
    fromJSONVertex g V = .ok (g.createVertex (V.elem 1) uuid).2 := by
  unfold fromJSONVertex
  rw [hA, hS]
  rfl

theorem fromJSONVertex_eq_errA (g : Graph JSValue JSValue) (V : JSValue)
    (hA : V.isArray = false) :
    fromJSONVertex g V =
      .error "Failed to parse: One of the vertices isn't a tuple!" := by
  unfold fromJSONVertex
  rw [hA]
  rfl

theorem fromJSONVertex_eq_errS (g : Graph JSValue JSValue) (V : JSValue)
    (hA : V.isArray = true) (hS : (V.elem 0).asString = none) :
    fromJSONVertex g V = .error "Failed to parse: Unexpected UUID!" := by
  unfold fromJSONVertex
  rw [hA, hS]
  rfl

theorem fromJSONVertex_ok_shape (g g' : Graph JSValue JSValue) (V : JSValue)
    (h : fromJSONVertex g V = .ok g') :
    V.isArray = true ∧ ∃ uuid, (V.elem 0).asString = some uuid ∧
      g' = (g.createVertex (V.elem 1) uuid).2 := by
  by_cases hA : V.isArray = true
  · cases hS : (V.elem 0).asString with
    | none =>
      rw [fromJSONVertex_eq_errS g V hA hS] at h
      exact Except.noConfusion h
    | some uuid =>
      rw [fromJSONVertex_eq_ok g V uuid hA hS] at h
      exact ⟨hA, uuid, rfl, (Except.ok.inj h).symm⟩
  · rw [fromJSONVertex_eq_errA g V (by simpa using hA)] at h
    exact Except.noConfusion h

theorem fromJSONEdge_eq_errA (g : Graph JSValue JSValue) (E : JSValue)
    (hA : E.isArray = false) :
    fromJSONEdge g E =
      .error "Failed to parse: One of the edges isn't a tuple!" := by
  unfold fromJSONEdge
  rw [hA]
  rfl

theorem fromJSONEdge_eq_err0 (g : Graph JSValue JSValue) (E : JSValue)
    (hA : E.isArray = true) (h0 : (E.elem 0).asString = none) :
    fromJSONEdge g E = .error "Failed to parse: UUID wasn't a string!" := by
  unfold fromJSONEdge
  rw [hA, h0]
  rfl

theorem fromJSONEdge_eq_err1 (g : Graph JSValue JSValue) (E : JSValue)
    (uuid : String) (hA : E.isArray = true)
    (h0 : (E.elem 0).asString = some uuid)
    (h1 : (E.elem 1).asString = none) :
    fromJSONEdge g E = .error "Failed to parse: U wasn't a string!" := by
  unfold fromJSONEdge
  rw [hA, h0, h1]
  rfl

theorem fromJSONEdge_eq_err2 (g : Graph JSValue JSValue) (E : JSValue)
    (uuid us : String) (hA : E.isArray = true)
    (h0 : (E.elem 0).asString = some uuid)
    (h1 : (E.elem 1).asString = some us)
    (h2 : (E.elem 2).asString = none) :
    fromJSONEdge g E = .error "Failed to parse: V wasn't a string!" := by
  unfold fromJSONEdge
  rw [hA, h0, h1, h2]
  rfl

theorem fromJSONEdge_eq_strs (g : Graph JSValue JSValue) (E : JSValue)
    (uuid us vs : String) (hA : E.isArray = true)
    (h0 : (E.elem 0).asString = some uuid)
    (h1 : (E.elem 1).asString = some us)
    (h2 : (E.elem 2).asString = some vs) :
    fromJSONEdge g E =
      (match mapGet g.vertices us with
       | none => .error "Vertex doesn't exist!"
       | some U =>
         match mapGet g.vertices vs with
         | none => .error "Vertex doesn't exist!"
         | some V =>
           g.createEdge U V (E.elem 4) (some (E.elem 3).truthy) uuid >>=
             fun r => pure r.2) := by
  unfold fromJSONEdge
  rw [hA, h0, h1, h2]
  rfl

theorem fromJSONEdge_eq_errU (g : Graph JSValue JSValue) (E : JSValue)
    (uuid us vs : String) (hA : E.isArray = true)
    (h0 : (E.elem 0).asString = some uuid)
    (h1 : (E.elem 1).asString = some us)
    (h2 : (E.elem 2).asString = some vs)
    (hU : mapGet g.vertices us = none) :
    fromJSONEdge g E = .error "Vertex doesn't exist!" := by
  rw [fromJSONEdge_eq_strs g E uuid us vs hA h0 h1 h2, hU]

theorem fromJSONEdge_eq_strsU (g : Graph JSValue JSValue) (E : JSValue)
    (uuid us vs : String) (U : Vertex JSValue) (hA : E.isArray = true)
    (h0 : (E.elem 0).asString = some uuid)
    (h1 : (E.elem 1).asString = some us)
    (h2 : (E.elem 2).asString = some vs)
    (hU : mapGet g.vertices us = some U) :
    fromJSONEdge g E =
      (match mapGet g.vertices vs with
       | none => .error "Vertex doesn't exist!"
       | some V =>
         g.createEdge U V (E.elem 4) (some (E.elem 3).truthy) uuid >>=
           fun r => pure r.2) := by
  rw [fromJSONEdge_eq_strs g E uuid us vs hA h0 h1 h2, hU]

theorem fromJSONEdge_eq_errV (g : Graph JSValue JSValue) (E : JSValue)
    (uuid us vs : String) (U : Vertex JSValue) (hA : E.isArray = true)
    (h0 : (E.elem 0).asString = some uuid)
    (h1 : (E.elem 1).asString = some us)
    (h2 : (E.elem 2).asString = some vs)
    (hU : mapGet g.vertices us = some U)
    (hV : mapGet g.vertices vs = none) :
    fromJSONEdge g E = .error "Vertex doesn't exist!" := by
  rw [fromJSONEdge_eq_strsU g E uuid us vs U hA h0 h1 h2 hU, hV]

theorem fromJSONEdge_eq_step (g : Graph JSValue JSValue) (E : JSValue)
    (uuid us vs : String) (U V : Vertex JSValue) (hA : E.isArray = true)
    (h0 : (E.elem 0).asString = some uuid)
    (h1 : (E.elem 1).asString = some us)
    (h2 : (E.elem 2).asString = some vs)
    (hU : mapGet g.vertices us = some U)
    (hV : mapGet g.vertices vs = some V) :
    fromJSONEdge g E =
      (g.createEdge U V (E.elem 4) (some (E.elem 3).truthy) uuid >>=
        fun r => pure r.2) := by
  rw [fromJSONEdge_eq_strsU g E uuid us vs U hA h0 h1 h2 hU, hV]

theorem fromJSONEdge_ok_shape (g g' : Graph JSValue JSValue) (E : JSValue)
    (h : fromJSONEdge g E = .ok g') :
    E.isArray = true ∧ ∃ uuid us vs U V,
      (E.elem 0).asString = some uuid ∧ (E.elem 1).asString = some us ∧
      (E.elem 2).asString = some vs ∧ mapGet g.vertices us = some U ∧
      mapGet g.vertices vs = some V ∧
      g' = (g.createEdgeCore U V (E.elem 4)
        (((some (E.elem 3).truthy).getD g.directed)) uuid).2 ∧
      U.graphRef = g.ref ∧ V.graphRef = g.ref := by
  by_cases hA : E.isArray = true
  case neg =>
    rw [fromJSONEdge_eq_errA g E (by simpa using hA)] at h
    exact Except.noConfusion h
  cases h0 : (E.elem 0).asString with
  | none => rw [fromJSONEdge_eq_err0 g E hA h0] at h; exact Except.noConfusion h
  | some uuid =>
  cases h1 : (E.elem 1).asString with
  | none =>
    rw [fromJSONEdge_eq_err1 g E uuid hA h0 h1] at h
    exact Except.noConfusion h
  | some us =>
  cases h2 : (E.elem 2).asString with
  | none =>
    rw [fromJSONEdge_eq_err2 g E uuid us hA h0 h1 h2] at h
    exact Except.noConfusion h
  | some vs =>
  cases hU : mapGet g.vertices us with
  | none =>
    rw [fromJSONEdge_eq_errU g E uuid us vs hA h0 h1 h2 hU] at h
    exact Except.noConfusion h
  | some U =>
  cases hV : mapGet g.vertices vs with
  | none =>
    rw [fromJSONEdge_eq_errV g E uuid us vs U hA h0 h1 h2 hU hV] at h
    exact Except.noConfusion h
  | some V =>
  rw [fromJSONEdge_eq_step g E uuid us vs U V hA h0 h1 h2 hU hV] at h
  by_cases hg : U.graphRef ≠ V.graphRef ∨ U.graphRef ≠ g.ref
  · rw [show g.createEdge U V (E.elem 4) (some (E.elem 3).truthy) uuid =
        .error "Both vertices and the new edge must all belong to the same graph."
      from by unfold Graph.createEdge; rw [if_pos hg]] at h
    exact Except.noConfusion h
  · push_neg at hg
    rw [createEdge_eq_ok g U V (E.elem 4) (some (E.elem 3).truthy) uuid
      (hg.2) (hg.1 ▸ hg.2)] at h
    refine ⟨hA, uuid, us, vs, U, V, rfl, rfl, rfl, hU, hV, ?_, hg.2,
      hg.1 ▸ hg.2⟩
    have := Except.ok.inj h
    exact this.symm

theorem fromJSONEdge_ok_vertices (g g' : Graph JSValue JSValue) (E : JSValue)
    (h : fromJSONEdge g E = .ok g') : g'.vertices = g.vertices := by
  obtain ⟨-, uuid, us, vs, U, V, -, -, -, -, -, hg', -, -⟩ :=
    fromJSONEdge_ok_shape g g' E h
  rw [hg', createEdgeCore_vertices]

theorem fromJSONEdge_ok_ref (g g' : Graph JSValue JSValue) (E : JSValue)
    (h : fromJSONEdge g E = .ok g') : g'.ref = g.ref := by
  obtain ⟨-, uuid, us, vs, U, V, -, -, -, -, -, hg', -, -⟩ :=
    fromJSONEdge_ok_shape g g' E h
  rw [hg', createEdgeCore_ref]

theorem vfold_ok_conditions (l : List JSValue) :
    ∀ g g' : Graph JSValue JSValue, l.foldlM fromJSONVertex g = .ok g' →
      ∀ V ∈ l, V.isArray = true ∧ ((V.elem 0).asString).isSome = true := by
  induction l with
  | nil => intro g g' _ V hV; simp at hV
  | cons W t ih =>
    intro g g' h V hV
    rw [List.foldlM_cons] at h
    obtain ⟨g₁, hg₁, hrest⟩ := except_bind_ok _ _ _ h
    rcases List.mem_cons.mp hV with rfl | hV'
    · obtain ⟨hA, uuid, hS, -⟩ := fromJSONVertex_ok_shape g g₁ V hg₁
      exact ⟨hA, by simp [hS]⟩
    · exact ih g₁ g' hrest V hV'

theorem vfold_keys (l : List JSValue) :
    ∀ g g' : Graph JSValue JSValue, l.foldlM fromJSONVertex g = .ok g' →
      ∀ k ∈ g'.vertices.map (·.1),
        k ∈ g.vertices.map (·.1) ∨ ∃ V ∈ l, (V.elem 0).asString = some k := by
  induction l with
  | nil =>
    intro g g' h k hk
    simp only [List.foldlM_nil] at h
    cases h
    exact Or.inl hk
  | cons W t ih =>
    intro g g' h k hk
    rw [List.foldlM_cons] at h
    obtain ⟨g₁, hg₁, hrest⟩ := except_bind_ok _ _ _ h
    obtain ⟨hA, uuid, hS, hshape⟩ := fromJSONVertex_ok_shape g g₁ W hg₁
    rcases ih g₁ g' hrest k hk with hin | ⟨V, hV, hVk⟩
    · subst hshape
      rcases createVertex_keys_subset g (W.elem 1) uuid k hin with hin' | rfl
      · exact Or.inl hin'
      · exact Or.inr ⟨W, by simp, hS⟩
    · exact Or.inr ⟨V, by simp [hV], hVk⟩

theorem efold_vertices (l : List JSValue) :
    ∀ g g' : Graph JSValue JSValue, l.foldlM fromJSONEdge g = .ok g' →
      g'.vertices = g.vertices := by
  induction l with
  | nil =>
    intro g g' h
    simp only [List.foldlM_nil] at h
    cases h
    rfl
  | cons F t ih =>
    intro g g' h
    rw [List.foldlM_cons] at h
    obtain ⟨g₁, hg₁, hrest⟩ := except_bind_ok _ _ _ h
    rw [ih g₁ g' hrest, fromJSONEdge_ok_vertices g g₁ F hg₁]

theorem efold_ok_conditions (l : List JSValue) :
    ∀ g g' : Graph JSValue JSValue, l.foldlM fromJSONEdge g = .ok g' →
      ∀ E ∈ l, E.isArray = true ∧ ((E.elem 0).asString).isSome = true ∧
        (∃ us, (E.elem 1).asString = some us ∧
          us ∈ g.vertices.map (·.1)) ∧
        (∃ vs, (E.elem 2).asString = some vs ∧
          vs ∈ g.vertices.map (·.1)) := by
  induction l with
  | nil => intro g g' _ E hE; simp at hE
  | cons F t ih =>
    intro g g' h E hE
    rw [List.foldlM_cons] at h
    obtain ⟨g₁, hg₁, hrest⟩ := except_bind_ok _ _ _ h
    rcases List.mem_cons.mp hE with rfl | hE'
    · obtain ⟨hA, uuid, us, vs, U, V, h0, h1, h2, hU, hV, -, -, -⟩ :=
        fromJSONEdge_ok_shape g g₁ E hg₁
      refine ⟨hA, by simp [h0], ⟨us, h1, ?_⟩, ⟨vs, h2, ?_⟩⟩
      · exact (mapGet_isSome_iff g.vertices us).mp (by simp [hU])
      · exact (mapGet_isSome_iff g.vertices vs).mp (by simp [hV])
    · have hv1 := fromJSONEdge_ok_vertices g g₁ F hg₁
      have := ih g₁ g' hrest E hE'
      rwa [hv1] at this

/-- Modelled from the spec: the list of vertex identifiers appearing in the
serialized vertex list (element 0 of each vertex tuple, when it is a
string). -/
def vertexIds (j : JSValue) : List String :=
  (j.getProp "v").elems.filterMap (fun V => (V.elem 0).asString)

/-- Modelled from the spec: an edge-tuple element "references a vertex id
absent from `v`" when it is a string that names no vertex tuple. -/
def edgeEndpointMissing (j : JSValue) (x : JSValue) : Bool :=
  match x.asString with
  | none => false
  | some sid => decide (sid ∉ vertexIds j)

/-- Modelled from the spec: the parsing contract's rejection conditions
(spec section 6), without the claim's extra "non-boolean directed field"
condition, which the source does not check: the top-level value is not a
(truthy) object, the signature field mismatches, `v` or `e` is not an array,
a vertex tuple is not an array or its id is not a string, an edge tuple is
not an array or one of its three identifiers is not a string, or an edge
references a vertex id absent from `v`. -/
def specParseRejects (j : JSValue) : Bool :=
  !(j.truthy && j.typeofObject) ||
  !(j.getProp "@graph").eqStr Graph.signature ||
  !(j.getProp "v").isArray ||
  !(j.getProp "e").isArray ||
  (j.getProp "v").elems.any
    (fun V => !V.isArray || ((V.elem 0).asString).isNone) ||
  (j.getProp "e").elems.any
    (fun E => !E.isArray || ((E.elem 0).asString).isNone ||
      ((E.elem 1).asString).isNone || ((E.elem 2).asString).isNone ||
      edgeEndpointMissing j (E.elem 1) || edgeEndpointMissing j (E.elem 2))

theorem fromJSON_eq_err1 (j : JSValue)
    (h1 : ¬ (j.truthy && j.typeofObject) = true) :
    Graph.fromJSON j = .error "Failed to parse: Unexpected object!" := by
  unfold Graph.fromJSON
  rw [if_pos h1]
  rfl

theorem fromJSON_eq_err2 (j : JSValue)
    (h1 : (j.truthy && j.typeofObject) = true)
    (h2 : ¬ (j.getProp "@graph").eqStr Graph.signature = true) :
    Graph.fromJSON j = .error "Failed to parse: The object isn't a graph!" := by
  unfold Graph.fromJSON
  rw [if_neg (not_not_intro h1), if_pos h2]
  rfl

theorem fromJSON_eq_err3 (j : JSValue)
    (h1 : (j.truthy && j.typeofObject) = true)
    (h2 : (j.getProp "@graph").eqStr Graph.signature = true)
    (h3 : ¬ (j.getProp "v").isArray = true) :
    Graph.fromJSON j =
      .error "Failed to parse: The vertices property isn't an array!" := by
  unfold Graph.fromJSON
  rw [if_neg (not_not_intro h1), if_neg (not_not_intro h2), if_pos h3]
  rfl

theorem fromJSON_eq_err4 (j : JSValue)
    (h1 : (j.truthy && j.typeofObject) = true)
    (h2 : (j.getProp "@graph").eqStr Graph.signature = true)
    (h3 : (j.getProp "v").isArray = true)
    (h4 : ¬ (j.getProp "e").isArray = true) :
    Graph.fromJSON j =
      .error "Failed to parse: The edges property isn't an array!" := by
  unfold Graph.fromJSON
  rw [if_neg (not_not_intro h1), if_neg (not_not_intro h2),
    if_neg (not_not_intro h3), if_pos h4]
  rfl

theorem fromJSON_eq_folds (j : JSValue)
    (h1 : (j.truthy && j.typeofObject) = true)
    (h2 : (j.getProp "@graph").eqStr Graph.signature = true)
    (h3 : (j.getProp "v").isArray = true)
    (h4 : (j.getProp "e").isArray = true) :
    Graph.fromJSON j =
      ((j.getProp "v").elems.foldlM fromJSONVertex
          (Graph.new JSValue JSValue 0) >>= fun gv =>
        (j.getProp "e").elems.foldlM fromJSONEdge gv >>= fun ge =>
          pure ge) := by
  unfold Graph.fromJSON
  rw [if_neg (not_not_intro h1), if_neg (not_not_intro h2),
    if_neg (not_not_intro h3), if_neg (not_not_intro h4)]
  rfl

theorem fromJSON_ok_not_rejects (j : JSValue) (g : Graph JSValue JSValue)
    (h : Graph.fromJSON j = .ok g) : specParseRejects j = false := by
  by_cases h1 : (j.truthy && j.typeofObject) = true
  case neg => rw [fromJSON_eq_err1 j h1] at h; exact Except.noConfusion h
  by_cases h2 : (j.getProp "@graph").eqStr Graph.signature = true
  case neg => rw [fromJSON_eq_err2 j h1 h2] at h; exact Except.noConfusion h
  by_cases h3 : (j.getProp "v").isArray = true
  case neg => rw [fromJSON_eq_err3 j h1 h2 h3] at h; exact Except.noConfusion h
  by_cases h4 : (j.getProp "e").isArray = true
  case neg =>
    rw [fromJSON_eq_err4 j h1 h2 h3 h4] at h
    exact Except.noConfusion h
  rw [fromJSON_eq_folds j h1 h2 h3 h4] at h
  obtain ⟨gv, hgv, h⟩ := except_bind_ok _ _ _ h
  obtain ⟨ge, hge, -⟩ := except_bind_ok _ _ _ h
  have hvc := vfold_ok_conditions _ _ _ hgv
  have hec := efold_ok_conditions _ _ _ hge
  have hkeys : ∀ k ∈ gv.vertices.map (·.1), k ∈ vertexIds j := by
    intro k hk
    rcases vfold_keys _ _ _ hgv k hk with hin | ⟨V, hV, hVk⟩
    · simp [Graph.new] at hin
    · exact List.mem_filterMap.mpr ⟨V, hV, hVk⟩
  unfold specParseRejects
  simp only [h1, h2, h3, h4, Bool.not_true, Bool.false_or,
    Bool.or_eq_false_iff, List.any_eq_false]
  refine ⟨fun V hV => ?_, fun E hE => ?_⟩
  · obtain ⟨hA, hS⟩ := hvc V hV
    have hSn : ¬ (V.elem 0).asString = none :=
      Option.isSome_iff_ne_none.mp hS
    simp [hA, hSn]
  · obtain ⟨hA, h0e, ⟨us, h1e, hus⟩, ⟨vs, h2e, hvs⟩⟩ := hec E hE
    have h0n : ¬ (E.elem 0).asString = none :=
      Option.isSome_iff_ne_none.mp h0e
    have hm1 : edgeEndpointMissing j (E.elem 1) = false := by
      unfold edgeEndpointMissing
      rw [h1e]
      simp only [decide_eq_false_iff_not, Decidable.not_not]
      exact hkeys us hus
    have hm2 : edgeEndpointMissing j (E.elem 2) = false := by
      unfold edgeEndpointMissing
      rw [h2e]
      simp only [decide_eq_false_iff_not, Decidable.not_not]
      exact hkeys vs hvs
    simp [hA, h0n, h1e, h2e, hm1, hm2]

/-! ### Round trip: `fromJSON` after `toJSON` -/

theorem toJSON_getProp_sig (G : Graph JSValue JSValue) :
    (Graph.toJSON G).getProp "@graph" = .str Graph.signature := rfl

theorem toJSON_getProp_v (G : Graph JSValue JSValue) :
    (Graph.toJSON G).getProp "v" =
      .arr (G.vertices.map (fun p => .arr [.str p.2.id, p.2.data])) := rfl

theorem toJSON_getProp_e (G : Graph JSValue JSValue) :
    (Graph.toJSON G).getProp "e" =
      .arr (G.edges.map (fun p =>
        .arr [.str p.2.id, .str p.2.u.id, .str p.2.v.id,
              .bool p.2.directed, p.2.data])) := rfl

/-- The id/data signature of the vertex map, in insertion order. -/
def vertexSig (G : Graph JSValue JSValue) : List (String × String × JSValue) :=
  G.vertices.map (fun q => (q.1, q.2.id, q.2.data))

/-- The id/endpoints/directedness/data signature of the edge map, in
insertion order. -/
def edgeSig (G : Graph JSValue JSValue) :
    List (String × String × String × String × Bool × JSValue) :=
  G.edges.map (fun q => (q.1, q.2.id, q.2.u.id, q.2.v.id, q.2.directed, q.2.data))

/-- The pure effect of the `fromJSON` vertex loop on serialized input. -/
def reviveVertices (g : Graph JSValue JSValue)
    (l : List (String × Vertex JSValue)) : Graph JSValue JSValue :=
  l.foldl (fun g p => (g.createVertex p.2.data p.2.id).2) g

theorem mapSet_mem {κ γ : Type} [DecidableEq κ] (m : List (κ × γ)) (k : κ)
    (x : γ) : ∀ q ∈ mapSet m k x, q ∈ m ∨ q = (k, x) := by
  intro q hq
  unfold mapSet at hq
  split at hq
  · rcases List.mem_map.mp hq with ⟨p, hp, hpq⟩
    by_cases h : p.1 = k
    · rw [if_pos h] at hpq
      exact Or.inr hpq.symm
    · rw [if_neg h] at hpq
      exact Or.inl (hpq ▸ hp)
  · rcases List.mem_append.mp hq with h | h
    · exact Or.inl h
    · simp at h
      exact Or.inr h

theorem vfold_serialized (l : List (String × Vertex JSValue)) :
    ∀ g : Graph JSValue JSValue,
      (l.map (fun p => JSValue.arr [.str p.2.id, p.2.data])).foldlM
        fromJSONVertex g = .ok (reviveVertices g l) := by
  induction l with
  | nil => intro g; rfl
  | cons p t ih =>
    intro g
    rw [List.map_cons, List.foldlM_cons,
      fromJSONVertex_eq_ok g (JSValue.arr [.str p.2.id, p.2.data])
        p.2.id rfl rfl]
    exact ih _

theorem reviveVertices_ref (l : List (String × Vertex JSValue)) :
    ∀ g : Graph JSValue JSValue, (reviveVertices g l).ref = g.ref := by
  induction l with
  | nil => intro g; rfl
  | cons p t ih => intro g; exact ih _

theorem reviveVertices_edges (l : List (String × Vertex JSValue)) :
    ∀ g : Graph JSValue JSValue, (reviveVertices g l).edges = g.edges := by
  induction l with
  | nil => intro g; rfl
  | cons p t ih => intro g; exact ih _

theorem reviveVertices_entries (l : List (String × Vertex JSValue)) :
    ∀ g : Graph JSValue JSValue,
      (∀ q ∈ g.vertices, q.1 = q.2.id ∧ q.2.graphRef = g.ref) →
      ∀ q ∈ (reviveVertices g l).vertices,
        q.1 = q.2.id ∧ q.2.graphRef = g.ref := by
  induction l with
  | nil => intro g hg q hq; exact hg q hq
  | cons p t ih =>
    intro g hg q hq
    have hstep : ∀ q ∈ ((g.createVertex p.2.data p.2.id).2).vertices,
        q.1 = q.2.id ∧ q.2.graphRef = g.ref := by
      intro q hq
      rcases mapSet_mem g.vertices p.2.id _ q hq with hin | rfl
      · exact hg q hin
      · exact ⟨rfl, rfl⟩
    have := ih ((g.createVertex p.2.data p.2.id).2) (by
      intro q hq
      exact hstep q hq) q hq
    exact this

theorem reviveVertices_sig (l : List (String × Vertex JSValue)) :
    ∀ g : Graph JSValue JSValue,
      ((g.vertices.map (·.1) ++ l.map (fun p => p.2.id)).Nodup) →
      (reviveVertices g l).vertices.map (fun q => (q.1, q.2.id, q.2.data)) =
        g.vertices.map (fun q => (q.1, q.2.id, q.2.data)) ++
          l.map (fun p => (p.2.id, p.2.id, p.2.data)) := by
  induction l with
  | nil => intro g _; simp [reviveVertices]
  | cons p t ih =>
    intro g hnd
    have hfresh : ¬ g.vertices.any (fun q => q.1 = p.2.id) = true := by
      intro hc
      rcases List.any_eq_true.mp hc with ⟨q, hq, hqk⟩
      simp only [decide_eq_true_eq] at hqk
      have h1 : p.2.id ∈ g.vertices.map (·.1) :=
        List.mem_map.mpr ⟨q, hq, hqk⟩
      have h2 : p.2.id ∈ (p :: t).map (fun p => p.2.id) := by simp
      rcases List.disjoint_of_nodup_append hnd h1 h2
    have hstep : ((g.createVertex p.2.data p.2.id).2).vertices =
        g.vertices ++ [(p.2.id, ⟨g.nextRef, g.ref, p.2.id, p.2.data⟩)] :=
      mapSet_append_of_not_mem _ _ _ hfresh
    have hkeys : ((g.createVertex p.2.data p.2.id).2).vertices.map (·.1) =
        g.vertices.map (·.1) ++ [p.2.id] := by
      rw [hstep, List.map_append]
      rfl
    have hnd' : (((g.createVertex p.2.data p.2.id).2).vertices.map (·.1) ++
        t.map (fun p => p.2.id)).Nodup := by
      rw [hkeys, List.append_assoc]
      simpa [List.append_assoc] using hnd
    have := ih ((g.createVertex p.2.data p.2.id).2) hnd'
    show (reviveVertices ((g.createVertex p.2.data p.2.id).2) t).vertices.map
        (fun q => (q.1, q.2.id, q.2.data)) = _
    rw [this, hstep, List.map_append, List.map_cons]
    simp

theorem efold_serialized (l : List (String × Edge JSValue JSValue)) :
    ∀ g : Graph JSValue JSValue,
      (∀ p ∈ l, ∃ U W : Vertex JSValue,
        mapGet g.vertices p.2.u.id = some U ∧ U.graphRef = g.ref ∧
          U.id = p.2.u.id ∧
        mapGet g.vertices p.2.v.id = some W ∧ W.graphRef = g.ref ∧
          W.id = p.2.v.id) →
      ((g.edges.map (·.1) ++ l.map (fun p => p.2.id)).Nodup) →
      ∃ g' : Graph JSValue JSValue,
        (l.map (fun p => JSValue.arr [.str p.2.id, .str p.2.u.id,
            .str p.2.v.id, .bool p.2.directed, p.2.data])).foldlM
          fromJSONEdge g = .ok g' ∧
        g'.edges.map (fun q =>
            (q.1, q.2.id, q.2.u.id, q.2.v.id, q.2.directed, q.2.data)) =
          g.edges.map (fun q =>
            (q.1, q.2.id, q.2.u.id, q.2.v.id, q.2.directed, q.2.data)) ++
          l.map (fun p =>
            (p.2.id, p.2.id, p.2.u.id, p.2.v.id, p.2.directed, p.2.data)) ∧
        g'.vertices = g.vertices := by
  induction l with
  | nil =>
    intro g _ _
    exact ⟨g, rfl, by simp, rfl⟩
  | cons p t ih =>
    intro g hlook hnd
    obtain ⟨U, W, hU, hUg, hUid, hW, hWg, hWid⟩ := hlook p (by simp)
    have hfresh : ¬ g.edges.any (fun q => q.1 = p.2.id) = true := by
      intro hc
      rcases List.any_eq_true.mp hc with ⟨q, hq, hqk⟩
      simp only [decide_eq_true_eq] at hqk
      have h1 : p.2.id ∈ g.edges.map (·.1) := List.mem_map.mpr ⟨q, hq, hqk⟩
      have h2 : p.2.id ∈ (p :: t).map (fun p => p.2.id) := by simp
      rcases List.disjoint_of_nodup_append hnd h1 h2
    have hhead : fromJSONEdge g
        (JSValue.arr [.str p.2.id, .str p.2.u.id, .str p.2.v.id,
          .bool p.2.directed, p.2.data]) =
        .ok (g.createEdgeCore U W p.2.data p.2.directed p.2.id).2 := by
      rw [fromJSONEdge_eq_step g
        (JSValue.arr [.str p.2.id, .str p.2.u.id, .str p.2.v.id,
          .bool p.2.directed, p.2.data])
        p.2.id p.2.u.id p.2.v.id U W rfl rfl rfl rfl hU hW]
      rw [createEdge_eq_ok g U W _ _ _ hUg hWg]
      rfl
    set g₁ := (g.createEdgeCore U W p.2.data p.2.directed p.2.id).2 with hg₁
    have hedges₁ : g₁.edges = g.edges ++
        [(p.2.id, ⟨g.nextRef, g.ref, p.2.id, U, W, p.2.directed, p.2.data⟩)] := by
      rw [hg₁, createEdgeCore_edges]
      exact mapSet_append_of_not_mem _ _ _ hfresh
    have hverts₁ : g₁.vertices = g.vertices := rfl
    have href₁ : g₁.ref = g.ref := rfl
    have hlook' : ∀ q ∈ t, ∃ U W : Vertex JSValue,
        mapGet g₁.vertices q.2.u.id = some U ∧ U.graphRef = g₁.ref ∧
          U.id = q.2.u.id ∧
        mapGet g₁.vertices q.2.v.id = some W ∧ W.graphRef = g₁.ref ∧
          W.id = q.2.v.id := by
      intro q hq
      rw [hverts₁, href₁]
      exact hlook q (by simp [hq])
    have hnd' : (g₁.edges.map (·.1) ++ t.map (fun p => p.2.id)).Nodup := by
      rw [hedges₁, List.map_append, List.append_assoc]
      simpa [List.append_assoc] using hnd
    obtain ⟨g', hfold, hsig, hverts⟩ := ih g₁ hlook' hnd'
    refine ⟨g', ?_, ?_, by rw [hverts, hverts₁]⟩
    · rw [List.map_cons, List.foldlM_cons, hhead]
      exact hfold
    · rw [hsig, hedges₁, List.map_append, List.map_cons]
      simp [hUid, hWid]

/-- Well-formedness needed for the round trip: map keys are unique and agree
with stored ids, and every edge endpoint id names a registered vertex. All
graphs produced by the factory methods with fresh ids satisfy it. -/
def Graph.SerialWF (G : Graph JSValue JSValue) : Prop :=
  (G.vertices.map (·.1)).Nodup ∧ (G.edges.map (·.1)).Nodup ∧
  (∀ p ∈ G.vertices, p.1 = p.2.id) ∧ (∀ p ∈ G.edges, p.1 = p.2.id) ∧
  (∀ p ∈ G.edges, p.2.u.id ∈ G.vertices.map (·.1) ∧
    p.2.v.id ∈ G.vertices.map (·.1))

instance (G : Graph JSValue JSValue) : Decidable G.SerialWF := by
  unfold Graph.SerialWF
  infer_instance

theorem roundtrip_main (G : Graph JSValue JSValue) (wf : G.SerialWF) :
    ∃ G₂ : Graph JSValue JSValue,
      Graph.fromJSON (Graph.toJSON G) = .ok G₂ ∧
      vertexSig G₂ = vertexSig G ∧ edgeSig G₂ = edgeSig G := by
  obtain ⟨nd1, nd2, wf3, wf4, wf5⟩ := wf
  have h1 : ((Graph.toJSON G).truthy && (Graph.toJSON G).typeofObject)
      = true := rfl
  have h2 : ((Graph.toJSON G).getProp "@graph").eqStr Graph.signature
      = true := rfl
  have h3 : ((Graph.toJSON G).getProp "v").isArray = true := rfl
  have h4 : ((Graph.toJSON G).getProp "e").isArray = true := rfl
  have hvElems : ((Graph.toJSON G).getProp "v").elems =
      G.vertices.map (fun p => JSValue.arr [.str p.2.id, p.2.data]) := rfl
  have heElems : ((Graph.toJSON G).getProp "e").elems =
      G.edges.map (fun p => JSValue.arr [.str p.2.id, .str p.2.u.id,
        .str p.2.v.id, .bool p.2.directed, p.2.data]) := rfl
  have hidkeys : G.vertices.map (fun p => p.2.id) = G.vertices.map (·.1) :=
    List.map_congr_left (fun p hp => (wf3 p hp).symm)
  have hndv : (((Graph.new JSValue JSValue 0).vertices.map (·.1)) ++
      G.vertices.map (fun p => p.2.id)).Nodup := by
    show (([] : List String) ++ G.vertices.map (fun p => p.2.id)).Nodup
    rw [List.nil_append, hidkeys]
    exact nd1
  have hsigv := reviveVertices_sig G.vertices (Graph.new JSValue JSValue 0) hndv
  set gv := reviveVertices (Graph.new JSValue JSValue 0) G.vertices with hgv
  have hsigv' : gv.vertices.map (fun q => (q.1, q.2.id, q.2.data)) =
      G.vertices.map (fun p => (p.2.id, p.2.id, p.2.data)) := by
    simpa [Graph.new] using hsigv
  have hkeysgv : gv.vertices.map (·.1) = G.vertices.map (fun p => p.2.id) := by
    have := congrArg (List.map (fun t : String × String × JSValue => t.1)) hsigv'
    simpa [List.map_map, Function.comp] using this
  have hrefgv : gv.ref = 0 := reviveVertices_ref G.vertices _
  have hedgesgv : gv.edges = [] := reviveVertices_edges G.vertices _
  have hentries : ∀ q ∈ gv.vertices, q.1 = q.2.id ∧ q.2.graphRef = 0 := by
    intro q hq
    exact reviveVertices_entries G.vertices (Graph.new JSValue JSValue 0)
      (by intro q hq; simp [Graph.new] at hq) q hq
  have hlook : ∀ p ∈ G.edges, ∃ U W : Vertex JSValue,
      mapGet gv.vertices p.2.u.id = some U ∧ U.graphRef = gv.ref ∧
        U.id = p.2.u.id ∧
      mapGet gv.vertices p.2.v.id = some W ∧ W.graphRef = gv.ref ∧
        W.id = p.2.v.id := by
    intro p hp
    have hu : p.2.u.id ∈ gv.vertices.map (·.1) := by
      rw [hkeysgv, hidkeys]
      exact (wf5 p hp).1
    have hv : p.2.v.id ∈ gv.vertices.map (·.1) := by
      rw [hkeysgv, hidkeys]
      exact (wf5 p hp).2
    obtain ⟨U, hU⟩ := Option.isSome_iff_exists.mp
      ((mapGet_isSome_iff gv.vertices p.2.u.id).mpr hu)
    obtain ⟨W, hW⟩ := Option.isSome_iff_exists.mp
      ((mapGet_isSome_iff gv.vertices p.2.v.id).mpr hv)
    have hUm := hentries _ (mapGet_mem _ _ _ hU)
    have hWm := hentries _ (mapGet_mem _ _ _ hW)
    exact ⟨U, W, hU, by rw [hrefgv]; exact hUm.2, hUm.1.symm,
      hW, by rw [hrefgv]; exact hWm.2, hWm.1.symm⟩
  have hnde : (gv.edges.map (·.1) ++ G.edges.map (fun p => p.2.id)).Nodup := by
    rw [hedgesgv]
    show (([] : List String) ++ G.edges.map (fun p => p.2.id)).Nodup
    rw [List.nil_append,
      List.map_congr_left (fun p hp => ((wf4 p hp).symm :
        (fun p : String × Edge JSValue JSValue => p.2.id) p = p.1))]
    exact nd2
  obtain ⟨g', hfold, hsig, hverts⟩ := efold_serialized G.edges gv hlook hnde
  refine ⟨g', ?_, ?_, ?_⟩
  · rw [fromJSON_eq_folds _ h1 h2 h3 h4, hvElems, heElems,
      vfold_serialized G.vertices (Graph.new JSValue JSValue 0)]
    show ((Except.ok gv) >>= fun gv =>
      (G.edges.map (fun p => JSValue.arr [.str p.2.id, .str p.2.u.id,
        .str p.2.v.id, .bool p.2.directed, p.2.data])).foldlM fromJSONEdge gv
        >>= fun ge => pure ge) = .ok g'
    rw [show ((Except.ok gv) >>= fun gv =>
      (G.edges.map (fun p => JSValue.arr [.str p.2.id, .str p.2.u.id,
        .str p.2.v.id, .bool p.2.directed, p.2.data])).foldlM fromJSONEdge gv
        >>= fun ge => pure ge) =
      ((G.edges.map (fun p => JSValue.arr [.str p.2.id, .str p.2.u.id,
        .str p.2.v.id, .bool p.2.directed, p.2.data])).foldlM fromJSONEdge gv
        >>= fun ge => pure ge) from rfl]
    rw [hfold]
    rfl
  · unfold vertexSig
    rw [hverts, hsigv']
    exact (List.map_congr_left (fun p hp => by rw [wf3 p hp])).symm
  · unfold edgeSig
    rw [hsig, hedgesgv]
    show ([] : List _) ++ _ = _
    rw [List.nil_append]
    exact (List.map_congr_left (fun p hp => by rw [wf4 p hp])).symm

/-! ### BFS semantics: traversal steps, reachability, chains -/

/-- One traversal step, exactly as the BFS/DFS loop bodies admit it: an edge
in `x`'s adjacency set, not skipped by the directedness test, leading to the
opposite endpoint. -/
def stepRel {α β : Type} (G : Graph α β) (x w : Vertex α) : Prop :=
  ∃ E ∈ G.adjOf x.ref, E.allowedFrom x = true ∧ E.not x = w

/-- Reachability from `root` in exactly `n` traversal steps. -/
inductive Reach {α β : Type} (G : Graph α β) (root : Vertex α) :
    Vertex α → Nat → Prop where
  | refl : Reach G root root 0
  | tail {x w : Vertex α} {n : Nat} :
      Reach G root x n → stepRel G x w → Reach G root w (n + 1)

/-- An edge list forms a valid traversal chain starting at `x`. -/
def chainOK {α β : Type} (G : Graph α β) : Vertex α → List (Edge α β) → Prop
  | _, [] => True
  | x, E :: es =>
    E ∈ G.adjOf x.ref ∧ E.allowedFrom x = true ∧ chainOK G (E.not x) es

/-- The endpoint a chain of edges leads to, starting from `x`. -/
def follow {α β : Type} (x : Vertex α) (es : List (Edge α β)) : Vertex α :=
  es.foldl (fun y E => E.not y) x

theorem follow_nil {α β : Type} (x : Vertex α) :
    follow x ([] : List (Edge α β)) = x := rfl

theorem follow_cons {α β : Type} (x : Vertex α) (E : Edge α β)
    (es : List (Edge α β)) : follow x (E :: es) = follow (E.not x) es := rfl

theorem follow_append_one {α β : Type} (x : Vertex α) (es : List (Edge α β))
    (E : Edge α β) : follow x (es ++ [E]) = E.not (follow x es) := by
  simp [follow, List.foldl_append]

theorem chainOK_snoc {α β : Type} (G : Graph α β) :
    ∀ (es : List (Edge α β)) (x : Vertex α) (E : Edge α β),
      chainOK G x es → E ∈ G.adjOf (follow x es).ref →
      E.allowedFrom (follow x es) = true → chainOK G x (es ++ [E]) := by
  intro es
  induction es with
  | nil =>
    intro x E _ hmem hall
    exact ⟨hmem, hall, trivial⟩
  | cons F es ih =>
    intro x E hch hmem hall
    obtain ⟨hF, hA, hrest⟩ := hch
    rw [follow_cons] at hmem hall
    exact ⟨hF, hA, ih (F.not x) E hrest hmem hall⟩

theorem Edge.not_congr {α β : Type} (E : Edge α β) (x y : Vertex α)
    (h : x.ref = y.ref) : E.not x = E.not y := by
  unfold Edge.not
  rw [h]

theorem Edge.allowedFrom_congr {α β : Type} (E : Edge α β) (x y : Vertex α)
    (h : x.ref = y.ref) : E.allowedFrom x = E.allowedFrom y := by
  unfold Edge.allowedFrom
  rw [h]

theorem stepRel_congr {α β : Type} (G : Graph α β) (x y w : Vertex α)
    (h : x.ref = y.ref) (hs : stepRel G x w) : stepRel G y w := by
  obtain ⟨E, hmem, hall, hnot⟩ := hs
  refine ⟨E, ?_, ?_, ?_⟩
  · rwa [← h]
  · rwa [← Edge.allowedFrom_congr E x y h]
  · rwa [← Edge.not_congr E x y h]

/-- All vertex records a traversal from `root` can ever handle: the root and
the endpoints of every edge in any adjacency set. -/
def Graph.touched {α β : Type} (G : Graph α β) (root : Vertex α) :
    List (Vertex α) :=
  root :: G.adj.flatMap (fun p => p.2.flatMap (fun e => [e.u, e.v]))

/-- Well-formedness for the traversal theorems: distinct vertex records in
play have distinct allocation refs (JS object identity is well defined), and
every adjacency edge belongs to the traversed graph (so `Path.addEdge`'s
ownership throw, not modelled, can never fire). -/
def Graph.BFSWF {α β : Type} (G : Graph α β) (root : Vertex α) : Prop :=
  (∀ x ∈ G.touched root, ∀ y ∈ G.touched root, x.ref = y.ref → x = y) ∧
  (∀ p ∈ G.adj, ∀ e ∈ p.2, e.graphRef = G.ref)

instance {α β : Type} [DecidableEq α] [DecidableEq β] (G : Graph α β)
    (root : Vertex α) : Decidable (G.BFSWF root) := by
  unfold Graph.BFSWF
  infer_instance

theorem adjOf_mem_touched {α β : Type} (G : Graph α β) (root : Vertex α)
    (r : Ref) (E : Edge α β) (hE : E ∈ G.adjOf r) :
    E.u ∈ G.touched root ∧ E.v ∈ G.touched root := by
  unfold Graph.adjOf mapGet at hE
  cases hfind : G.adj.find? (fun p => p.1 = r) with
  | none => simp [hfind] at hE
  | some p =>
    simp only [hfind, Option.map_some', Option.getD_some] at hE
    have hp : p ∈ G.adj := List.mem_of_find?_eq_some hfind
    constructor <;>
    · unfold Graph.touched
      refine List.mem_cons.mpr (Or.inr ?_)
      rw [List.mem_flatMap]
      exact ⟨p, hp, List.mem_flatMap.mpr ⟨E, hE, by simp⟩⟩

theorem not_mem_touched {α β : Type} (G : Graph α β) (root : Vertex α)
    (r : Ref) (E : Edge α β) (x : Vertex α) (hE : E ∈ G.adjOf r) :
    E.not x ∈ G.touched root := by
  obtain ⟨hu, hv⟩ := adjOf_mem_touched G root r E hE
  unfold Edge.not
  split
  · exact hv
  · exact hu

theorem reach_touched {α β : Type} (G : Graph α β) (root : Vertex α)
    (t : Vertex α) (n : Nat) (h : Reach G root t n) :
    t ∈ G.touched root := by
  induction h with
  | refl => exact List.mem_cons.mpr (Or.inl rfl)
  | tail _ hstep _ =>
    obtain ⟨E, hmem, _, hnot⟩ := hstep
    rw [← hnot]
    exact not_mem_touched G root _ E _ hmem

theorem follow_touched {α β : Type} (G : Graph α β) (root : Vertex α) :
    ∀ (es : List (Edge α β)) (x : Vertex α), x ∈ G.touched root →
      chainOK G x es → follow x es ∈ G.touched root := by
  intro es
  induction es with
  | nil => intro x hx _; exact hx
  | cons E es ih =>
    intro x hx hch
    obtain ⟨hE, _, hrest⟩ := hch
    rw [follow_cons]
    exact ih (E.not x) (not_mem_touched G root _ E x hE) hrest

/-- The recorded path length of a vertex ref in the back-path map. -/
def plen {α β : Type} (P : List (Ref × Path α β)) (r : Ref) : Nat :=
  ((mapGet P r).map (fun p => p.edges.length)).getD 0

theorem root_touched {α β : Type} (G : Graph α β) (root : Vertex α) :
    root ∈ G.touched root :=
  List.mem_cons.mpr (Or.inl rfl)

/-- The BFS loop invariant, holding on entry to every iteration: the root is
discovered; queued vertices are discovered; every discovered ref carries a
recorded path from the root that is a valid chain of minimal length ending at
that ref; queued vertices are the endpoints of their recorded paths; the
recorded lengths along the queue are a block of some `k` followed by a block
of `k+1`; a discovered vertex with an undiscovered traversal successor is
still queued; and fully processed vertices never satisfied the predicate. -/
structure BFSInv {α β : Type} (G : Graph α β) (root : Vertex α)
    (pred : Vertex α → Bool) (q : List (Vertex α)) (d : List Ref)
    (P : List (Ref × Path α β)) : Prop where
  rootd : root.ref ∈ d
  qsubd : ∀ v ∈ q, v.ref ∈ d
  entries : ∀ r ∈ d, ∃ p, mapGet P r = some p ∧ p.start = some root ∧
    chainOK G root p.edges ∧ (follow root p.edges).ref = r ∧
    Reach G root (follow root p.edges) p.edges.length ∧
    (∀ m, Reach G root (follow root p.edges) m → p.edges.length ≤ m)
  qstruct : ∀ v ∈ q, ∃ p, mapGet P v.ref = some p ∧ follow root p.edges = v
  shape : ∃ k a b, q.map (fun u => plen P u.ref) =
    List.replicate a k ++ List.replicate b (k + 1)
  frontier : ∀ x w : Vertex α, stepRel G x w → x.ref ∈ d → w.ref ∉ d →
    ∃ v' ∈ q, v'.ref = x.ref
  processed : ∀ r ∈ d, (∀ v' ∈ q, v'.ref ≠ r) →
    ∀ p, mapGet P r = some p → pred (follow root p.edges) = false

theorem frontier_bound {α β : Type} (G : Graph α β) (root : Vertex α)
    (pred : Vertex α → Bool) (q : List (Vertex α)) (d : List Ref)
    (P : List (Ref × Path α β)) (hwf : G.BFSWF root)
    (inv : BFSInv G root pred q d P) :
    ∀ (t : Vertex α) (m : Nat), Reach G root t m → t.ref ∉ d →
      ∃ v' ∈ q, plen P v'.ref < m := by
  intro t m hr
  induction hr with
  | refl => intro hd; exact absurd inv.rootd hd
  | @tail x w n hx hstep ih =>
    intro hd
    by_cases hxd : x.ref ∈ d
    · obtain ⟨v', hv'q, hv'r⟩ := inv.frontier x w hstep hxd hd
      obtain ⟨p, hget, hstart, hchain, hfref, hre, hmin⟩ :=
        inv.entries x.ref hxd
      have hxt : x ∈ G.touched root := reach_touched G root x n hx
      have hft : follow root p.edges ∈ G.touched root :=
        follow_touched G root p.edges root (root_touched G root) hchain
      have hfx : follow root p.edges = x := hwf.1 _ hft _ hxt hfref
      have hlen : p.edges.length ≤ n := hmin n (by rwa [hfx])
      have hpl : plen P v'.ref = p.edges.length := by
        rw [plen, hv'r, hget]
        rfl
      exact ⟨v', hv'q, by omega⟩
    · obtain ⟨v', hq, hlt⟩ := ih hxd
      exact ⟨v', hq, by omega⟩

theorem shape_head_le {α β : Type} (P : List (Ref × Path α β)) (v : Vertex α)
    (rest : List (Vertex α))
    (hsh : ∃ k a b, (v :: rest).map (fun u => plen P u.ref) =
      List.replicate a k ++ List.replicate b (k + 1)) :
    ∀ u ∈ v :: rest, plen P v.ref ≤ plen P u.ref := by
  obtain ⟨k, a, b, h⟩ := hsh
  intro u hu
  have hmemu : plen P u.ref ∈
      List.replicate a k ++ List.replicate b (k + 1) := by
    rw [← h]
    exact List.mem_map.mpr ⟨u, hu, rfl⟩
  rw [List.map_cons] at h
  cases a with
  | zero =>
    have hk : plen P u.ref = k + 1 :=
      List.eq_of_mem_replicate (by simpa using hmemu)
    rw [List.replicate_zero, List.nil_append] at h
    cases b with
    | zero => exact absurd h (by simp)
    | succ b' =>
      rw [List.replicate_succ] at h
      have hv := (List.cons.injEq _ _ _ _).mp h
      rw [hv.1, hk]
  | succ a' =>
    have hval : plen P u.ref = k ∨ plen P u.ref = k + 1 := by
      rcases List.mem_append.mp hmemu with hm | hm
      · exact Or.inl (List.eq_of_mem_replicate hm)
      · exact Or.inr (List.eq_of_mem_replicate hm)
    rw [List.replicate_succ, List.cons_append] at h
    have hv := (List.cons.injEq _ _ _ _).mp h
    rcases hval with hk | hk <;>
    · rw [hv.1]
      omega

theorem bfsStep_skip {α β : Type} (v : Vertex α)
    (st : List (Vertex α) × List Ref × List (Ref × Path α β)) (E : Edge α β)
    (h : ¬ E.allowedFrom v = true) : bfsStep v st E = st := by
  simp [bfsStep, h]

theorem bfsStep_disc {α β : Type} (v : Vertex α)
    (st : List (Vertex α) × List Ref × List (Ref × Path α β)) (E : Edge α β)
    (h : E.allowedFrom v = true) (hd : (E.not v).ref ∈ st.2.1) :
    bfsStep v st E = st := by
  simp [bfsStep, h, hd]

theorem bfsStep_push {α β : Type} (v : Vertex α)
    (st : List (Vertex α) × List Ref × List (Ref × Path α β)) (E : Edge α β)
    (h : E.allowedFrom v = true) (hd : ¬ (E.not v).ref ∈ st.2.1) :
    bfsStep v st E = (st.1 ++ [E.not v], st.2.1 ++ [(E.not v).ref],
      mapSet st.2.2 (E.not v).ref
        (((mapGet st.2.2 v.ref).getD (Path.create v)).copy.addEdge E)) := by
  simp [bfsStep, h, hd]

theorem bfsExpand_spec {α β : Type} (G : Graph α β) (v : Vertex α)
    (pv : Path α β) (es : List (Edge α β)) :
    ∀ (q₀ : List (Vertex α)) (d₀ : List Ref) (P₀ : List (Ref × Path α β)),
      mapGet P₀ v.ref = some pv → v.ref ∈ d₀ →
      (∀ E ∈ es, E ∈ G.adjOf v.ref) →
      ∃ ws : List (Vertex α),
        (es.foldl (bfsStep v) (q₀, d₀, P₀)).1 = q₀ ++ ws ∧
        (es.foldl (bfsStep v) (q₀, d₀, P₀)).2.1 = d₀ ++ ws.map (·.ref) ∧
        (∀ r ∈ d₀,
          mapGet (es.foldl (bfsStep v) (q₀, d₀, P₀)).2.2 r = mapGet P₀ r) ∧
        (∀ w ∈ ws, w.ref ∉ d₀ ∧ ∃ E ∈ G.adjOf v.ref,
          E.allowedFrom v = true ∧ E.not v = w ∧
          mapGet (es.foldl (bfsStep v) (q₀, d₀, P₀)).2.2 w.ref =
            some (pv.copy.addEdge E)) ∧
        (∀ E ∈ es, E.allowedFrom v = true →
          (E.not v).ref ∈ (es.foldl (bfsStep v) (q₀, d₀, P₀)).2.1) := by
  induction es with
  | nil =>
    intro q₀ d₀ P₀ hpv hvd hES
    exact ⟨[], by simp, by simp, fun r _ => rfl, fun w hw => absurd hw
      (by simp), fun E hE => absurd hE (by simp)⟩
  | cons E es ih =>
    intro q₀ d₀ P₀ hpv hvd hES
    rw [List.foldl_cons]
    by_cases hall : E.allowedFrom v = true
    · by_cases hdisc : (E.not v).ref ∈ d₀
      · rw [bfsStep_disc v (q₀, d₀, P₀) E hall hdisc]
        obtain ⟨ws, hA, hB, hC, hD, hEcl⟩ :=
          ih q₀ d₀ P₀ hpv hvd (fun F hF => hES F (by simp [hF]))
        refine ⟨ws, hA, hB, hC, hD, ?_⟩
        intro F hF hFall
        rcases List.mem_cons.mp hF with rfl | hF'
        · rw [hB]
          exact List.mem_append.mpr (Or.inl hdisc)
        · exact hEcl F hF' hFall
      · rw [bfsStep_push v (q₀, d₀, P₀) E hall hdisc]
        have hne : v.ref ≠ (E.not v).ref := fun hc => hdisc (hc ▸ hvd)
        have hpv' : mapGet (mapSet P₀ (E.not v).ref
            (((mapGet P₀ v.ref).getD (Path.create v)).copy.addEdge E))
            v.ref = some pv := by
          rw [mapGet_set_ne _ _ _ _ hne]
          exact hpv
        obtain ⟨ws', hA, hB, hC, hD, hEcl⟩ :=
          ih (q₀ ++ [E.not v]) (d₀ ++ [(E.not v).ref]) _ hpv'
            (List.mem_append.mpr (Or.inl hvd))
            (fun F hF => hES F (by simp [hF]))
        refine ⟨E.not v :: ws', ?_, ?_, ?_, ?_, ?_⟩
        · rw [hA]
          simp
        · rw [hB]
          simp
        · intro r hr
          have hr' : r ∈ d₀ ++ [(E.not v).ref] :=
            List.mem_append.mpr (Or.inl hr)
          have hrne : r ≠ (E.not v).ref := by
            intro hc
            rw [hc] at hr
            exact hdisc hr
          rw [hC r hr', mapGet_set_ne _ _ _ _ hrne]
        · intro w hw
          rcases List.mem_cons.mp hw with rfl | hw'
          · refine ⟨hdisc, E, hES E (by simp), hall, rfl, ?_⟩
            have hwr : (E.not v).ref ∈ d₀ ++ [(E.not v).ref] := by simp
            rw [hC (E.not v).ref hwr, mapGet_set_self, hpv]
            rfl
          · obtain ⟨hwd, F, hFmem, hFall, hFnot, hwget⟩ := hD w hw'
            exact ⟨fun hc => hwd (List.mem_append.mpr (Or.inl hc)),
              F, hFmem, hFall, hFnot, hwget⟩
        · intro F hF hFall
          rcases List.mem_cons.mp hF with rfl | hF'
          · rw [hB]
            simp
          · exact hEcl F hF' hFall
    · rw [bfsStep_skip v (q₀, d₀, P₀) E hall]
      obtain ⟨ws, hA, hB, hC, hD, hEcl⟩ :=
        ih q₀ d₀ P₀ hpv hvd (fun F hF => hES F (by simp [hF]))
      refine ⟨ws, hA, hB, hC, hD, ?_⟩
      intro F hF hFall
      rcases List.mem_cons.mp hF with rfl | hF'
      · exact absurd hFall hall
      · exact hEcl F hF' hFall

theorem plen_of_get {α β : Type} (P : List (Ref × Path α β)) (r : Ref)
    (p : Path α β) (h : mapGet P r = some p) : plen P r = p.edges.length := by
  rw [plen, h]
  rfl

theorem bfsInv_preserved {α β : Type} (G : Graph α β) (root : Vertex α)
    (pred : Vertex α → Bool) (hwf : G.BFSWF root) (v : Vertex α)
    (rest : List (Vertex α)) (d : List Ref) (P : List (Ref × Path α β))
    (inv : BFSInv G root pred (v :: rest) d P) (hpredv : pred v = false) :
    BFSInv G root pred
      ((G.adjOf v.ref).foldl (bfsStep v) (rest, d, P)).1
      ((G.adjOf v.ref).foldl (bfsStep v) (rest, d, P)).2.1
      ((G.adjOf v.ref).foldl (bfsStep v) (rest, d, P)).2.2 := by
  obtain ⟨pv, hpvget, hpvfollow⟩ := inv.qstruct v (by simp)
  have hvd : v.ref ∈ d := inv.qsubd v (by simp)
  obtain ⟨pe, hpeget, hstart, hchain, hfref, hre, hmin⟩ := inv.entries v.ref hvd
  have hpe : pe = pv := by
    rw [hpvget] at hpeget
    exact (Option.some.inj hpeget).symm
  rw [hpe] at hstart hchain hfref hre hmin
  obtain ⟨ws, hA, hB, hC, hD, hEcl⟩ :=
    bfsExpand_spec G v pv (G.adjOf v.ref) rest d P hpvget hvd (fun E hE => hE)
  have hLre : Reach G root v pv.edges.length := by
    rwa [hpvfollow] at hre
  constructor
  case rootd =>
    rw [hB]
    exact List.mem_append.mpr (Or.inl inv.rootd)
  case qsubd =>
    intro u hu
    rw [hA] at hu
    rw [hB]
    rcases List.mem_append.mp hu with hu' | hu'
    · exact List.mem_append.mpr (Or.inl (inv.qsubd u (by simp [hu'])))
    · exact List.mem_append.mpr (Or.inr (List.mem_map.mpr ⟨u, hu', rfl⟩))
  case entries =>
    intro r hr
    rw [hB] at hr
    rcases List.mem_append.mp hr with hr' | hr'
    · obtain ⟨p, hget, h1, h2, h3, h4, h5⟩ := inv.entries r hr'
      exact ⟨p, by rw [hC r hr']; exact hget, h1, h2, h3, h4, h5⟩
    · obtain ⟨w, hw, rfl⟩ := List.mem_map.mp hr'
      obtain ⟨hwnd, E, hEmem, hEall, hEnot, hwget⟩ := hD w hw
      refine ⟨pv.copy.addEdge E, hwget, ?_, ?_, ?_, ?_, ?_⟩
      · show (pv.start <|> some E.u) = some root
        rw [hstart]
        rfl
      · show chainOK G root (pv.edges ++ [E])
        apply chainOK_snoc G pv.edges root E hchain
        · rwa [hpvfollow]
        · rw [hpvfollow]
          exact hEall
      · show (follow root (pv.edges ++ [E])).ref = w.ref
        rw [follow_append_one, hpvfollow, hEnot]
      · show Reach G root (follow root (pv.edges ++ [E]))
          (pv.edges ++ [E]).length
        rw [follow_append_one, hpvfollow, hEnot, List.length_append]
        exact Reach.tail hLre ⟨E, hEmem, hEall, hEnot⟩
      · show ∀ m, Reach G root (follow root (pv.edges ++ [E])) m →
          (pv.edges ++ [E]).length ≤ m
        rw [follow_append_one, hpvfollow, hEnot, List.length_append]
        intro m hrm
        by_contra hcon
        push_neg at hcon
        obtain ⟨v', hv'q, hlt⟩ :=
          frontier_bound G root pred (v :: rest) d P hwf inv w m hrm hwnd
        have hle := shape_head_le P v rest inv.shape v' hv'q
        have hLv : plen P v.ref = pv.edges.length := plen_of_get P v.ref pv hpvget
        simp only [List.length_singleton] at hcon
        omega
  case qstruct =>
    intro u hu
    rw [hA] at hu
    rcases List.mem_append.mp hu with hu' | hu'
    · obtain ⟨p, hget, hfol⟩ := inv.qstruct u (by simp [hu'])
      exact ⟨p, by rw [hC u.ref (inv.qsubd u (by simp [hu']))]; exact hget, hfol⟩
    · obtain ⟨hwnd, E, hEmem, hEall, hEnot, hwget⟩ := hD u hu'
      refine ⟨pv.copy.addEdge E, hwget, ?_⟩
      show follow root (pv.edges ++ [E]) = u
      rw [follow_append_one, hpvfollow, hEnot]
  case shape =>
    obtain ⟨k, a, b, hsh⟩ := inv.shape
    have hLv : plen P v.ref = pv.edges.length := plen_of_get P v.ref pv hpvget
    have hmaprest : rest.map (fun u =>
        plen ((G.adjOf v.ref).foldl (bfsStep v) (rest, d, P)).2.2 u.ref) =
        rest.map (fun u => plen P u.ref) := by
      apply List.map_congr_left
      intro u hu
      rw [plen, hC u.ref (inv.qsubd u (by simp [hu]))]
      rfl
    have hmapws : ws.map (fun u =>
        plen ((G.adjOf v.ref).foldl (bfsStep v) (rest, d, P)).2.2 u.ref) =
        List.replicate ws.length (pv.edges.length + 1) := by
      refine List.eq_replicate_iff.mpr ⟨by simp, ?_⟩
      intro x hx
      obtain ⟨w, hw, rfl⟩ := List.mem_map.mp hx
      obtain ⟨hwnd, E, hEmem, hEall, hEnot, hwget⟩ := hD w hw
      rw [plen, hwget]
      simp [Path.addEdge, Path.copy]
    rw [List.map_cons] at hsh
    rw [hA, List.map_append, hmaprest, hmapws]
    cases a with
    | zero =>
      cases b with
      | zero => exact absurd hsh (by simp)
      | succ b' =>
        rw [List.replicate_zero, List.nil_append, List.replicate_succ] at hsh
        have hv := (List.cons.injEq _ _ _ _).mp hsh
        refine ⟨k + 1, b', ws.length, ?_⟩
        rw [hv.2, hLv.symm.trans hv.1]
    | succ a' =>
      rw [List.replicate_succ, List.cons_append] at hsh
      have hv := (List.cons.injEq _ _ _ _).mp hsh
      refine ⟨k, a', b + ws.length, ?_⟩
      rw [hv.2, hLv.symm.trans hv.1, List.replicate_add, List.append_assoc]
  case frontier =>
    intro x w' hstep hxd hw'd
    rw [hB] at hxd hw'd
    rw [hA]
    rcases List.mem_append.mp hxd with hxd' | hxd'
    · have hw'nd : w'.ref ∉ d := fun hc =>
        hw'd (List.mem_append.mpr (Or.inl hc))
      obtain ⟨u, hu, hur⟩ := inv.frontier x w' hstep hxd' hw'nd
      rcases List.mem_cons.mp hu with heq | hu'
      · exfalso
        have hxv : x.ref = v.ref := by
          rw [← hur, heq]
        have hstep' : stepRel G v w' := stepRel_congr G x v w' hxv hstep
        obtain ⟨E, hEmem, hEall, hEnot⟩ := hstep'
        have := hEcl E hEmem hEall
        rw [hEnot] at this
        exact hw'd (hB ▸ this)
      · exact ⟨u, List.mem_append.mpr (Or.inl hu'), hur⟩
    · obtain ⟨w, hw, hwr⟩ := List.mem_map.mp hxd'
      exact ⟨w, List.mem_append.mpr (Or.inr hw), hwr⟩
  case processed =>
    intro r hr hnq p hp
    rw [hB] at hr
    rcases List.mem_append.mp hr with hr' | hr'
    · have hget : mapGet P r = some p := by rw [← hC r hr']; exact hp
      by_cases hvr : v.ref = r
      · have hpv' : p = pv := by
          rw [← hvr] at hget
          rw [hpvget] at hget
          exact (Option.some.inj hget).symm
        rw [hpv', hpvfollow]
        exact hpredv
      · apply inv.processed r hr' _ p hget
        intro u hu
        rcases List.mem_cons.mp hu with rfl | hu'
        · exact hvr
        · exact hnq u (by rw [hA]; exact List.mem_append.mpr (Or.inl hu'))
    · exfalso
      obtain ⟨w, hw, hwr⟩ := List.mem_map.mp hr'
      exact hnq w (by rw [hA]; exact List.mem_append.mpr (Or.inr hw)) hwr

theorem bfsLoop_nil {α β : Type} (G : Graph α β) (pred : Vertex α → Bool)
    (d : List Ref) (P : List (Ref × Path α β)) :
    bfsLoop G pred [] d P = none := by
  rw [bfsLoop]

theorem bfsLoop_cons {α β : Type} (G : Graph α β) (pred : Vertex α → Bool)
    (v : Vertex α) (rest : List (Vertex α)) (d : List Ref)
    (P : List (Ref × Path α β)) :
    bfsLoop G pred (v :: rest) d P =
      if pred v then mapGet P v.ref
      else
        bfsLoop G pred ((G.adjOf v.ref).foldl (bfsStep v) (rest, d, P)).1
          ((G.adjOf v.ref).foldl (bfsStep v) (rest, d, P)).2.1
          ((G.adjOf v.ref).foldl (bfsStep v) (rest, d, P)).2.2 := by
  rw [bfsLoop]

theorem bfs_empty_absurd {α β : Type} (G : Graph α β) (root : Vertex α)
    (pred : Vertex α → Bool) (d : List Ref) (P : List (Ref × Path α β))
    (hwf : G.BFSWF root) (inv : BFSInv G root pred [] d P) (s : Vertex α)
    (n : Nat) (hs : Reach G root s n) (hps : pred s = true) : False := by
  by_cases hsd : s.ref ∈ d
  · obtain ⟨p, hget, _, hchain, hfref, _, _⟩ := inv.entries s.ref hsd
    have hproc := inv.processed s.ref hsd (by intro v' hv'; simp at hv') p hget
    have hst : s ∈ G.touched root := reach_touched G root s n hs
    have hft : follow root p.edges ∈ G.touched root :=
      follow_touched G root p.edges root (root_touched G root) hchain
    have hfs : follow root p.edges = s := hwf.1 _ hft _ hst hfref
    rw [hfs, hps] at hproc
    exact Bool.noConfusion hproc
  · obtain ⟨v', hv', _⟩ :=
      frontier_bound G root pred [] d P hwf inv s n hs hsd
    simp at hv'

theorem bfsLoop_spec {α β : Type} (G : Graph α β) (root : Vertex α)
    (pred : Vertex α → Bool) (hwf : G.BFSWF root) :
    ∀ (N : Nat) (q : List (Vertex α)) (d : List Ref)
      (P : List (Ref × Path α β)),
      bfsMeasure G d q ≤ N → BFSInv G root pred q d P →
      ∀ (s : Vertex α) (n : Nat), Reach G root s n → pred s = true →
      ∃ pth, bfsLoop G pred q d P = some pth ∧ pth.start = some root ∧
        chainOK G root pth.edges ∧ pred (follow root pth.edges) = true ∧
        ∀ (s' : Vertex α) (m : Nat), pred s' = true → Reach G root s' m →
          pth.edges.length ≤ m := by
  intro N
  induction N with
  | zero =>
    intro q d P hm inv s n hs hps
    cases q with
    | nil => exact (bfs_empty_absurd G root pred d P hwf inv s n hs hps).elim
    | cons v rest =>
      exfalso
      simp [bfsMeasure] at hm
  | succ N ih =>
    intro q d P hm inv s n hs hps
    cases q with
    | nil => exact (bfs_empty_absurd G root pred d P hwf inv s n hs hps).elim
    | cons v rest =>
      by_cases hpv : pred v = true
      · obtain ⟨pv, hpvget, hpvfollow⟩ := inv.qstruct v (by simp)
        have hvd : v.ref ∈ d := inv.qsubd v (by simp)
        obtain ⟨pe, hpeget, hstart, hchain, hfref, hre, hmin⟩ :=
          inv.entries v.ref hvd
        have hpe : pe = pv := by
          rw [hpvget] at hpeget
          exact (Option.some.inj hpeget).symm
        rw [hpe] at hstart hchain hfref hre hmin
        refine ⟨pv, ?_, hstart, hchain, ?_, ?_⟩
        · rw [bfsLoop_cons, if_pos hpv]
          exact hpvget
        · rw [hpvfollow]
          exact hpv
        · intro s' m hps' hrs'
          have hLv : plen P v.ref = pv.edges.length :=
            plen_of_get P v.ref pv hpvget
          by_cases hs'd : s'.ref ∈ d
          · obtain ⟨p', hget', _, hchain', hfref', _, hmin'⟩ :=
              inv.entries s'.ref hs'd
            have hs't : s' ∈ G.touched root := reach_touched G root s' m hrs'
            have hft' : follow root p'.edges ∈ G.touched root :=
              follow_touched G root p'.edges root (root_touched G root) hchain'
            have hfs' : follow root p'.edges = s' := hwf.1 _ hft' _ hs't hfref'
            have hlenm : p'.edges.length ≤ m := hmin' m (by rwa [hfs'])
            by_cases hs'q : ∃ v'' ∈ v :: rest, v''.ref = s'.ref
            · obtain ⟨v'', hv''q, hv''r⟩ := hs'q
              have hle := shape_head_le P v rest inv.shape v'' hv''q
              have hpl'' : plen P v''.ref = p'.edges.length := by
                rw [plen, hv''r, hget']
                rfl
              omega
            · push_neg at hs'q
              have hproc := inv.processed s'.ref hs'd hs'q p' hget'
              rw [hfs', hps'] at hproc
              exact Bool.noConfusion hproc
          · obtain ⟨v', hv'q, hlt⟩ := frontier_bound G root pred (v :: rest)
              d P hwf inv s' m hrs' hs'd
            have hle := shape_head_le P v rest inv.shape v' hv'q
            omega
      · have hpv' : pred v = false := by
          cases hb : pred v
          · rfl
          · exact absurd hb hpv
        have inv' := bfsInv_preserved G root pred hwf v rest d P inv hpv'
        have hfold := bfsFold_measure G v (G.adjOf v.ref)
          (fun E hE => adjOf_mem_edgeEndRefs G v.ref E hE) (rest, d, P)
        have hm' : bfsMeasure G
            ((G.adjOf v.ref).foldl (bfsStep v) (rest, d, P)).2.1
            ((G.adjOf v.ref).foldl (bfsStep v) (rest, d, P)).1 ≤ N := by
          simp only [bfsMeasure, List.length_cons] at hm hfold ⊢
          omega
        obtain ⟨pth, hloop, h1, h2, h3, h4⟩ := ih _ _ _ hm' inv' s n hs hps
        refine ⟨pth, ?_, h1, h2, h3, h4⟩
        rw [bfsLoop_cons, if_neg hpv]
        exact hloop

theorem BFS_initial_inv {α β : Type} (G : Graph α β) (root : Vertex α)
    (pred : Vertex α → Bool) :
    BFSInv G root pred [root] [root.ref]
      [(root.ref, Path.create root)] := by
  constructor
  case rootd => simp
  case qsubd =>
    intro v hv
    simp only [List.mem_singleton] at hv
    rw [hv]
    simp
  case entries =>
    intro r hr
    simp only [List.mem_singleton] at hr
    subst hr
    refine ⟨Path.create root, ?_, rfl, trivial, rfl, Reach.refl, ?_⟩
    · simp [mapGet, List.find?]
    · intro m _
      simp [Path.create]
  case qstruct =>
    intro v hv
    simp only [List.mem_singleton] at hv
    rw [hv]
    exact ⟨Path.create root, by simp [mapGet, List.find?], rfl⟩
  case shape =>
    refine ⟨0, 1, 0, ?_⟩
    simp [plen, mapGet, List.find?, Path.create]
  case frontier =>
    intro x w _ hx _
    simp only [List.mem_singleton] at hx
    exact ⟨root, by simp, hx.symm⟩
  case processed =>
    intro r hr hnq
    simp only [List.mem_singleton] at hr
    subst hr
    exact absurd rfl (hnq root (by simp))

/-! ### Claim theorems -/

/-- Claim C2 (code bug): `kruskalPresorted()` called with no edge argument is
supposed to return a minimum spanning forest drawn from a min-heap of the
graph's edges, but the heap it constructs receives no elements, so the
returned edge set is empty for every graph — it spans nothing. -/
theorem kruskalPresorted_no_arg_always_empty {α β : Type} (G : Graph α β) :
    GraphSolver.kruskalPresorted G none = .ok [] :=
  kruskalPresorted_none_eq G

/-- Claim C3 (code bug): the part_003 DFS has no `discovered` set, so on a
graph with a single undirected edge and a never-accepting predicate it
re-inserts the two vertices into the frontier forever: for every iteration
bound `fuel` the loop is still running, and it never returns `null`. -/
theorem DFS_never_finishes_on_undirected_pair :
    ∀ fuel : Nat, GraphSolver.DFS pairG pairX (fun _ => false) fuel = none :=
  fun fuel => dfs_pair_loops fuel pairX (Or.inl rfl) _

/-- Claim C4 (code bug): `kruskalWithSort()` does re-sort the edge collection
permanently, but it then calls `kruskalPresorted()` without passing the sorted
edges, so it returns the empty set, while running the Kruskal step on the
graph's (sorted) edge sequence directly returns the spanning edge `"xy"`. -/
theorem kruskalWithSort_disagrees_with_presorted :
    (GraphSolver.kruskalWithSort pairG).1 = .ok [] ∧
    (GraphSolver.kruskalPresorted (GraphSolver.kruskalWithSort pairG).2
        (some ((GraphSolver.kruskalWithSort pairG).2.edges.map (·.2)))).map
      (fun es => es.map (·.id)) = .ok ["xy"] := by
  constructor
  · exact kruskalPresorted_none_eq _
  · have hsorted : (GraphSolver.kruskalWithSort pairG).2.edges.map (·.2) =
        [pairE] := by
      show (GraphSolver.sortEdgesByWeight pairG).edges.map (·.2) = [pairE]
      unfold GraphSolver.sortEdgesByWeight
      rw [show pairG.edges.map (·.2) = [pairE] from rfl]
      rw [List.mergeSort_singleton]
      rfl
    rw [hsorted]
    rfl

/-- Claim C6: after `deleteVertex(V)` on a coherent graph, no edge of the
edge map has `V` as an endpoint, `V`'s id is gone from the vertex map, and
every edge that was adjacent to `V` has been removed from the adjacency sets
of both of its endpoints (in particular from its other endpoint's). -/
theorem deleteVertex_no_dangling {α β : Type} (G : Graph α β) (V : Vertex α)
    (hco : G.Coherent) (hmem : mapGet G.vertices V.id = some V) :
    (∀ p ∈ (G.deleteVertex V).edges, p.2.u.ref ≠ V.ref ∧ p.2.v.ref ≠ V.ref) ∧
    mapGet (G.deleteVertex V).vertices V.id = none ∧
    (∀ E ∈ G.adjOf V.ref,
      (∀ x ∈ (G.deleteVertex V).adjOf E.u.ref, x.ref ≠ E.ref) ∧
      (∀ x ∈ (G.deleteVertex V).adjOf E.v.ref, x.ref ≠ E.ref)) := by
  obtain ⟨hv, he, hadj⟩ := hco
  refine ⟨?_, ?_, ?_⟩
  · intro p hp
    have hp' : p ∈ ((G.adjOf V.ref).foldl
        (fun g e => Graph.deleteEdge g e) G).edges := hp
    have hpG : p ∈ G.edges := foldl_deleteEdge_edges_subset _ _ p hp'
    constructor
    · intro hc
      have hmemadj : p.2 ∈ G.adjOf V.ref := by
        have := (hadj p hpG).1
        rwa [hc] at this
      have := foldl_deleteEdge_removes (G.adjOf V.ref) G p.2 hmemadj p hp'
      exact this (he p hpG)
    · intro hc
      have hmemadj : p.2 ∈ G.adjOf V.ref := by
        have := (hadj p hpG).2
        rwa [hc] at this
      have := foldl_deleteEdge_removes (G.adjOf V.ref) G p.2 hmemadj p hp'
      exact this (he p hpG)
  · show mapGet (mapDelete (((G.adjOf V.ref).foldl
      (fun g e => Graph.deleteEdge g e) G).vertices) V.id) V.id = none
    exact mapGet_delete_self _ _
  · intro E hE
    exact foldl_deleteEdge_adj_removes (G.adjOf V.ref) G E hE

/-- Claim C6 witness: the concrete two-vertex graph, deleting `x`. -/
theorem deleteVertex_no_dangling_witness :
    (∀ p ∈ (pairG.deleteVertex pairX).edges,
        p.2.u.ref ≠ pairX.ref ∧ p.2.v.ref ≠ pairX.ref) ∧
    mapGet (pairG.deleteVertex pairX).vertices pairX.id = none ∧
    (∀ E ∈ pairG.adjOf pairX.ref,
      (∀ x ∈ (pairG.deleteVertex pairX).adjOf E.u.ref, x.ref ≠ E.ref) ∧
      (∀ x ∈ (pairG.deleteVertex pairX).adjOf E.v.ref, x.ref ≠ E.ref)) :=
  deleteVertex_no_dangling pairG pairX (by decide) (by decide)

/-- Claim C7 counterexample: `createVertex` with an id that is already taken
does not fail — it registers the freshly created vertex under that id,
replacing the previous one. -/
theorem createVertex_collision_registers :
    mapGet ((((Graph.new Unit Unit 0).createVertex () "a").2.createVertex
        () "a").2).vertices "a" =
      some ((((Graph.new Unit Unit 0).createVertex () "a").2.createVertex
        () "a").1) ∧
    ((((Graph.new Unit Unit 0).createVertex () "a").2.createVertex
        () "a").1) ≠ (((Graph.new Unit Unit 0).createVertex () "a").1) := by
  decide

/-- Claim C7 (amended): on an id collision, `createVertex` replaces the map
entry in place — the new vertex is registered under the colliding id and the
key sequence of the vertex map is unchanged. -/
theorem createVertex_collision_overwrites {α β : Type} (G : Graph α β)
    (data : α) (id : String) (h : id ∈ G.vertices.map (·.1)) :
    mapGet (G.createVertex data id).2.vertices id =
      some (G.createVertex data id).1 ∧
    (G.createVertex data id).2.vertices.map (·.1) = G.vertices.map (·.1) := by
  constructor
  · exact mapGet_set_self G.vertices id _
  · apply mapSet_keys_of_mem
    rw [List.any_eq_true]
    rcases List.mem_map.mp h with ⟨p, hp, hpk⟩
    exact ⟨p, hp, by simpa using hpk⟩

/-- Claim C7 amended witness. -/
theorem createVertex_collision_overwrites_witness :
    mapGet ((((Graph.new Unit Unit 0).createVertex () "a").2.createVertex
        () "a").2).vertices "a" =
      some ((((Graph.new Unit Unit 0).createVertex () "a").2.createVertex
        () "a").1) ∧
    (((Graph.new Unit Unit 0).createVertex () "a").2.createVertex
        () "a").2.vertices.map (·.1) =
      ((Graph.new Unit Unit 0).createVertex () "a").2.vertices.map (·.1) :=
  createVertex_collision_overwrites _ () "a" (by decide)

/-- Claim C8: `createEdge` fails (the `Edge` constructor throws before any
registration) whenever an endpoint belongs to a different graph object than
`G`, or the endpoints belong to different graphs from each other; since the
throw happens before the edge map or any adjacency set is touched, the
caller's graph is unmodified (the model returns no graph in the error case,
leaving the caller with the original `G`). -/
theorem createEdge_foreign_rejects {α β : Type} (G : Graph α β)
    (u v : Vertex α) (data : β) (d? : Option Bool) (id : String)
    (h : u.graphRef ≠ v.graphRef ∨ u.graphRef ≠ G.ref) :
    G.createEdge u v data d? id =
      .error "Both vertices and the new edge must all belong to the same graph." := by
  unfold Graph.createEdge
  rw [if_pos h]

/-- Claim C8 witness: vertices from two distinct graphs. -/
theorem createEdge_foreign_rejects_witness :
    pairG.createEdge pairX ((Graph.new Unit Unit 7).createVertex () "z").1
      () none "bad" =
      .error "Both vertices and the new edge must all belong to the same graph." :=
  createEdge_foreign_rejects _ _ _ _ _ _ (by decide)

/-- Claim C10: deleting the same edge twice is a no-op the second time — the
edge map, the vertex map and every vertex object's adjacency set are exactly
as they were after the first deletion. -/
theorem deleteEdge_second_noop {α β : Type} (G : Graph α β) (E : Edge α β) :
    ((G.deleteEdge E).deleteEdge E).edges = (G.deleteEdge E).edges ∧
    ((G.deleteEdge E).deleteEdge E).vertices = (G.deleteEdge E).vertices ∧
    ∀ r : Ref, ((G.deleteEdge E).deleteEdge E).adjOf r =
      (G.deleteEdge E).adjOf r := by
  refine ⟨?_, rfl, ?_⟩
  · rw [deleteEdge_edges, deleteEdge_edges, mapDelete_idem]
  · intro r
    rw [deleteEdge_adjOf, deleteEdge_adjOf]
    split
    · rw [setDelete_idem]
    · rfl

/-- Step one of a serialisable concrete graph over JS-value payloads. -/
def serS1 : Vertex JSValue × Graph JSValue JSValue :=
  (Graph.new JSValue JSValue 3).createVertex (.num 1) "x"

def serS2 : Vertex JSValue × Graph JSValue JSValue :=
  serS1.2.createVertex (.str "hello") "y"

def serRes : Except String (Edge JSValue JSValue × Graph JSValue JSValue) :=
  serS2.2.createEdge serS1.1 serS2.1 (.bool true) (some true) "xy"

/-- A two-vertex, one-directed-edge graph over JS-value payloads (the error
branch is unreachable: both endpoints belong to the graph). -/
def serG : Graph JSValue JSValue :=
  match serRes with
  | .ok r => r.2
  | .error _ => serS2.2

/-- Claim C5: serialising a well-formed graph and parsing the result back
yields a graph with the same vertex entries (ids and data), the same edge
entries (ids, endpoint ids, directedness, data), in the same insertion
order. -/
theorem toJSON_fromJSON_roundtrip (G : Graph JSValue JSValue)
    (wf : G.SerialWF) :
    ∃ G₂ : Graph JSValue JSValue,
      Graph.fromJSON (Graph.toJSON G) = .ok G₂ ∧
      vertexSig G₂ = vertexSig G ∧ edgeSig G₂ = edgeSig G :=
  roundtrip_main G wf

/-- Claim C5 witness: the concrete two-vertex graph with a directed edge. -/
theorem toJSON_fromJSON_roundtrip_witness :
    ∃ G₂ : Graph JSValue JSValue,
      Graph.fromJSON (Graph.toJSON serG) = .ok G₂ ∧
      vertexSig G₂ = vertexSig serG ∧ edgeSig G₂ = edgeSig serG :=
  toJSON_fromJSON_roundtrip serG (by decide)

/-- A serialized graph whose edge tuple carries a string where the directed
flag belongs: every other field is valid. -/
def nonBoolDirectedInput : JSValue :=
  .obj [("@graph", .str Graph.signature),
        ("v", .arr [.arr [.str "a", .null], .arr [.str "b", .null]]),
        ("e", .arr [.arr [.str "e1", .str "a", .str "b", .str "banana",
          .null]])]

/-- Claim C9 counterexample: `fromJSON` accepts an input whose edge tuple has
the non-boolean value `"banana"` in the directed position — the claim says
such input is rejected, but the source never validates that field. -/
theorem fromJSON_accepts_non_boolean_directed :
    (Graph.fromJSON nonBoolDirectedInput).isOk = true := rfl

/-- Claim C9 (amended): `fromJSON` rejects by throwing — and, being written
in a single pass that returns only at the end, hands no partial graph to the
caller — whenever the top-level value is not a (truthy) object, the signature
field mismatches, `v` or `e` is not an array, a vertex tuple is not an array
or its id is not a string, an edge tuple is not an array or one of its three
identifiers is not a string, or an edge references a vertex id absent from
`v`. The directed field is not validated (see the counterexample). -/
theorem fromJSON_rejects_spec_conditions (j : JSValue)
    (h : specParseRejects j = true) :
    ∃ msg, Graph.fromJSON j = .error msg := by
  cases hr : Graph.fromJSON j with
  | error msg => exact ⟨msg, rfl⟩
  | ok g =>
    rw [fromJSON_ok_not_rejects j g hr] at h
    exact Bool.noConfusion h

/-- Claim C9 amended witness: the non-object input `null` is rejected. -/
theorem fromJSON_rejects_spec_conditions_witness :
    ∃ msg, Graph.fromJSON JSValue.null = .error msg :=
  fromJSON_rejects_spec_conditions JSValue.null (by decide)

/-- Claim C1: on a well-formed graph, whenever some vertex satisfying the
predicate is reachable from the root (respecting per-edge directedness),
`GraphSolver.BFS` returns a path that starts at the root, is a valid
traversal chain, ends at a vertex satisfying the predicate, and whose edge
count is minimal among all traversal chains from the root reaching any
predicate-satisfying vertex. -/
theorem BFS_finds_shortest {α β : Type} (G : Graph α β) (root : Vertex α)
    (pred : Vertex α → Bool) (hwf : G.BFSWF root) (s : Vertex α) (n : Nat)
    (hs : Reach G root s n) (hps : pred s = true) :
    ∃ pth, GraphSolver.BFS G root pred = some pth ∧
      pth.start = some root ∧ chainOK G root pth.edges ∧
      pred (follow root pth.edges) = true ∧
      ∀ (s' : Vertex α) (m : Nat), pred s' = true → Reach G root s' m →
        pth.edges.length ≤ m :=
  bfsLoop_spec G root pred hwf (bfsMeasure G [root.ref] [root]) [root]
    [root.ref] [(root.ref, Path.create root)] le_rfl
    (BFS_initial_inv G root pred) s n hs hps

/-- Claim C1 witness: on the two-vertex graph, BFS from `x` searching for id
`"y"` returns a shortest path. -/
theorem BFS_finds_shortest_witness :
    ∃ pth, GraphSolver.BFS pairG pairX (fun v => v.id == "y") = some pth ∧
      pth.start = some pairX ∧ chainOK pairG pairX pth.edges ∧
      (fun v : Vertex Unit => v.id == "y") (follow pairX pth.edges) = true ∧
      ∀ (s' : Vertex Unit) (m : Nat),
        (fun v : Vertex Unit => v.id == "y") s' = true →
        Reach pairG pairX s' m → pth.edges.length ≤ m :=
  BFS_finds_shortest pairG pairX (fun v => v.id == "y") (by decide) pairY 1
    (Reach.tail Reach.refl ⟨pairE, by decide, rfl, rfl⟩) rfl

end Pear

